import Mathlib

/-!
Verification development for the MetadataHub ingestion pipeline and retrieval
engine.  The definitions below are a shallow embedding of the Python sources
under `scripts/` and `skills/`: pure data manipulation is translated to Lean
functions, file-system effects are made explicit (a file system is a list of
existing store-relative paths, write effects are explicit operation traces),
and external collaborators (the embedding model, the FAISS inner-product
index, the JSON pretty-printer) are modelled by parameters or by their
documented interface.  Machine floats from the sources appear only in
similarity scores, which are modelled with rationals.
-/

namespace MetadataHub

/-- A file system is the list of existing store-relative paths.  Directory
creation with `exist_ok=True` and file writes both add a path. -/
abbrev FS := List String

/-- A tree node, mirroring the node dicts built by `scripts/build_tree.py`.
Optional dict keys (`content_ref`, `hint`, `preview`, `headers`,
`row_labels`) are `Option` fields defaulting to `none` (absent key).
The `level` field is not part of the JSON node: it records the
`section["level"]` value that `_sections_to_tree_nodes` pairs with the node
on its stack, kept on the node so the hierarchy property can be stated; for
nodes not born from a section it stays `0`. -/
inductive Node where
  | mk (node_id : String) (title : String) (summary : String)
       (children : List Node)
       (content_ref : Option String)
       (hint : Option String)
       (preview : Option String)
       (headers : Option (List String))
       (row_labels : Option (List String))
       (level : Nat) : Node

def Node.node_id : Node → String
  | .mk i _ _ _ _ _ _ _ _ _ => i

def Node.title : Node → String
  | .mk _ t _ _ _ _ _ _ _ _ => t

def Node.summary : Node → String
  | .mk _ _ s _ _ _ _ _ _ _ => s

def Node.children : Node → List Node
  | .mk _ _ _ c _ _ _ _ _ _ => c

def Node.content_ref : Node → Option String
  | .mk _ _ _ _ r _ _ _ _ _ => r

def Node.hint : Node → Option String
  | .mk _ _ _ _ _ h _ _ _ _ => h

def Node.preview : Node → Option String
  | .mk _ _ _ _ _ _ p _ _ _ => p

def Node.headers : Node → Option (List String)
  | .mk _ _ _ _ _ _ _ h _ _ => h

def Node.row_labels : Node → Option (List String)
  | .mk _ _ _ _ _ _ _ _ r _ => r

def Node.level : Node → Nat
  | .mk _ _ _ _ _ _ _ _ _ l => l

/-- Build a node with only the fields every node dict carries; the optional
dict keys are absent. -/
def Node.basic (node_id title summary : String) (children : List Node)
    (content_ref : Option String) (level : Nat := 0) : Node :=
  .mk node_id title summary children content_ref none none none none level

mutual

/-- Total number of nodes in a subtree (the Python `_count_nodes`). -/
def nodeCount : Node → Nat
  | .mk _ _ _ cs _ _ _ _ _ _ => 1 + nodeListCount cs

def nodeListCount : List Node → Nat
  | [] => 0
  | c :: rest => nodeCount c + nodeListCount rest

end

mutual

/-- All strict descendants of a node, in depth-first order. -/
def descendants : Node → List Node
  | .mk _ _ _ cs _ _ _ _ _ _ => descList cs

def descList : List Node → List Node
  | [] => []
  | c :: rest => c :: (descendants c ++ descList rest)

end

/-- The node together with all of its strict descendants. -/
def subtreeNodes (n : Node) : List Node := n :: descendants n

/-- Well-formed heading hierarchy: every child sits at a strictly larger
heading level, recursively. -/
inductive NodeWf : Node → Prop
  | mk (n : Node)
       (hlt : ∀ c ∈ n.children, n.level < c.level)
       (hwf : ∀ c ∈ n.children, NodeWf c) : NodeWf n

/-! ### Markdown converter: `scripts/converters/md_converter.py` -/

/-- One parsed markdown section, as produced by `_extract_sections`. -/
structure Section where
  title : String
  level : Nat
  line_start : Nat
  line_end : Nat

/-- Matching of the heading regex `^(#{1,6})\s+(.+)$` against one line (the
lines carry no newline, having been split on it): a run of one to six
leading hash marks, then at least one whitespace character, then at least
one more character of any kind (regex backtracking lets `.+` absorb
trailing whitespace, so any further character makes the line match).
Returns `(level, title)` where the title is regex group 2 stripped, which
equals the whole remainder after the hash run stripped.  The Python `\s`
and `strip()` act on Unicode whitespace; here both are the ASCII whitespace
of `Char.isWhitespace`. -/
def headingInfo (line : String) : Option (Nat × String) :=
  let cs := line.data
  let k := (cs.takeWhile (· = '#')).length
  if 1 ≤ k ∧ k ≤ 6 ∧ k + 2 ≤ cs.length ∧ (cs.getD k '#').isWhitespace then
    some (k, (String.mk (cs.drop k)).trim)
  else
    none

/-- Whether a line is a markdown heading recognised by `_extract_sections`. -/
def isHeadingLine (line : String) : Bool := (headingInfo line).isSome

/-- The `heading_positions` loop of `_extract_sections`: enumerate the lines
from index `i` and keep `(line_number, level, title)` for each heading. -/
def headingPositions : Nat → List String → List (Nat × Nat × String)
  | _, [] => []
  | i, line :: rest =>
    match headingInfo line with
    | some (lv, t) => (i, lv, t) :: headingPositions (i + 1) rest
    | none => headingPositions (i + 1) rest

/-- The second loop of `_extract_sections`: each heading position becomes a
section ending at the next heading position, or at the end of the file. -/
def withEnds (totalLines : Nat) : List (Nat × Nat × String) → List Section
  | [] => []
  | (i, lv, t) :: rest =>
    { title := t, level := lv, line_start := i,
      line_end := match rest with
        | (j, _, _) :: _ => j
        | [] => totalLines } :: withEnds totalLines rest

/-- Python `md_converter._extract_sections`. -/
def extractSections (lines : List String) : List Section :=
  withEnds lines.length (headingPositions 0 lines)

/-! ### Document-tree builder: `_sections_to_tree_nodes` in
`scripts/build_tree.py` -/

/-- Python `safe_title`: lower-case the title, replace each character of
`" /\\!@#$%^&*()"` by an underscore, truncate to 50 characters. -/
def safeSectionTitle (t : String) : String :=
  (([' ', '/', '\\', '!', '@', '#', '$', '%', '^', '&', '*', '(', ')'].foldl
    (fun s ch => s.replace (String.mk [ch]) "_") t.toLower)).take 50

/-- The `make_node` closure inside `_sections_to_tree_nodes`.  `node_counter` is the
already incremented counter; `sourceConvertedDir` is the store-relative
`converted/<id>` directory, so the candidate path is already relative to
the store root (the Python code computes the same string with
`relative_to`). -/
def sectionMakeNode (counter : Nat) (sec : Section)
    (sourceConvertedDir : String) (fs : FS) : Node :=
  let candidate := sourceConvertedDir ++ "/section_" ++ safeSectionTitle sec.title ++ ".md"
  Node.basic (s!"n{counter}") sec.title
    (s!"Section: {sec.title} (lines {sec.line_start}-{sec.line_end})")
    [] (if candidate ∈ fs then some candidate else none) sec.level

def Node.appendChild : Node → Node → Node
  | .mk i t s cs r h pv hd rl lv, c => .mk i t s (cs ++ [c]) r h pv hd rl lv

/-- The pop loop `while stack and stack[-1][0] >= level: stack.pop()` of
`_sections_to_tree_nodes`, together with the attachment of nodes.  The
Python code appends a node to its parent (or to the top-level list) when
the node is created and mutates it in place afterwards; functionally a node
is attached exactly when it leaves the stack, which produces the same
forest in the same sibling order.  State is `(top-level nodes, stack)`,
the stack head being the top. -/
def popWhile (level : Nat) (st : List Node × List (Nat × Node)) :
    List Node × List (Nat × Node) :=
  match st with
  | (roots, []) => (roots, [])
  | (roots, (lv, n) :: rest) =>
    if level ≤ lv then
      match rest with
      | [] => popWhile level (roots ++ [n], [])
      | (plv, p) :: rest' => popWhile level (roots, (plv, p.appendChild n) :: rest')
    else (roots, (lv, n) :: rest)
termination_by st.2.length

/-- The body of the `for section in sections` loop: create the node, pop the
stack, push `(level, node)`. -/
def sectionsStep (sourceConvertedDir : String) (fs : FS)
    (st : List Node × List (Nat × Node)) (isec : Nat × Section) :
    List Node × List (Nat × Node) :=
  let node := sectionMakeNode (isec.1 + 1) isec.2 sourceConvertedDir fs
  let st' := popWhile isec.2.level st
  (st'.1, (isec.2.level, node) :: st'.2)

/-- Python `_sections_to_tree_nodes`: fold the stack algorithm over the enumerated
sections, then drain the stack. -/
def sectionsToTreeNodes (sections : List Section)
    (sourceConvertedDir : String) (fs : FS) : List Node :=
  if sections.isEmpty then []
  else (popWhile 0 (sections.enum.foldl (sectionsStep sourceConvertedDir fs) ([], []))).1

/-- Total node count held by a `(top-level nodes, stack)` state. -/
def stCount (st : List Node × List (Nat × Node)) : Nat :=
  nodeListCount st.1 + (st.2.map (fun fr => nodeCount fr.2)).sum

/-- Invariant carried by each stack frame: the stored level is the node
level, the children already attached sit at strictly larger levels and are
well-formed. -/
def frameOk (fr : Nat × Node) : Prop :=
  fr.1 = fr.2.level ∧ (∀ c ∈ fr.2.children, fr.2.level < c.level) ∧
    (∀ c ∈ fr.2.children, NodeWf c)

/-- Invariant of the whole state: finished top-level nodes are well-formed,
frames are `frameOk`, and stack levels strictly decrease from top (head)
to bottom. -/
def StInv (st : List Node × List (Nat × Node)) : Prop :=
  (∀ r ∈ st.1, NodeWf r) ∧ (∀ fr ∈ st.2, frameOk fr) ∧
    st.2.Chain' (fun a b => b.1 < a.1)

/-! ### PDF converter and page-chunk tree nodes:
`scripts/converters/pdf_converter.py` and `_pages_to_tree_nodes` in
`scripts/build_tree.py` -/

/-- The page slices `page_texts[i:i+5]` for `i in range(0, total, 5)`. -/
def chunksOf5 {α : Type} (l : List α) : List (List α) :=
  if l.isEmpty then [] else l.take 5 :: chunksOf5 (l.drop 5)
termination_by l.length
decreasing_by
  simp only [List.length_drop]
  cases l with
  | nil => simp_all
  | cons a rest => simp; omega

/-- The `page_texts` list as produced by `pdf_converter.convert`: `(i + 1, text_i)`
for each page index `i`. -/
def mkPageTexts (texts : List String) : List (Nat × String) :=
  texts.enum.map (fun p => (p.1 + 1, p.2))

/-- Pages numbered consecutively from `k`; `mkPageTexts texts` equals
`numberFrom 1 texts`. -/
def numberFrom (k : Nat) : List String → List (Nat × String)
  | [] => []
  | t :: rest => (k, t) :: numberFrom (k + 1) rest

/-- Python `_pages_to_tree_nodes`: one leaf per chunk of five pages, titled
`"Pages <start>-<end>"`, with a preview summary from the first 100
characters of each page and a `content_ref` to the matching
`pages_<start>-<end>.txt` when it exists.  `dir` is the store-relative
`converted/<id>` directory, so the candidate path is already
store-relative. -/
def pagesToTreeNodes (pageTexts : List (Nat × String)) (dir : String)
    (fs : FS) : List Node :=
  (chunksOf5 pageTexts).enum.map (fun jc =>
    let startPage := (jc.2.headD (0, "")).1
    let endPage := (jc.2.getLastD (0, "")).1
    let previewParts := jc.2.filterMap (fun pt =>
      let snippet := ((pt.2.take 100).replace "\n" " ").trim
      if snippet.isEmpty then none else some snippet)
    let preview := ("; ".intercalate previewParts).take 200
    let candidate := dir ++ s!"/pages_{startPage}-{endPage}.txt"
    Node.basic (s!"n{jc.1 + 1}") (s!"Pages {startPage}-{endPage}")
      (if preview.isEmpty then s!"Pages {startPage} to {endPage}" else preview)
      [] (if candidate ∈ fs then some candidate else none))

/-- The files written by `pdf_converter.convert` when an output directory is
given: `full.txt`, then one `pages_<start+1>-<min(start+5,n)>.txt` per
`start in range(0, num_pages, 5)` (written here as `start = 5 * j` for
`j < ⌈n / 5⌉`). -/
def pdfOutputFiles (dir : String) (numPages : Nat) : List String :=
  (dir ++ "/full.txt") ::
    (List.range ((numPages + 4) / 5)).map (fun j =>
      dir ++ s!"/pages_{5 * j + 1}-{min (5 * j + 5) numPages}.txt")

/-- The titles and content references the spec expects for the page chunks:
pages grouped in fives in page order, the chunk beginning at page `k` of
`n` remaining pages titled `"Pages <k>-<k + min 5 n - 1>"` and pointing at
the matching `pages_*.txt` when present.  Stated from the claim words, to
be compared with `pagesToTreeNodes`. -/
def specPageChunks (dir : String) (fs : FS) (k n : Nat) :
    List (String × Option String) :=
  if n = 0 then [] else
    let e := k + min 5 n - 1
    let candidate := dir ++ s!"/pages_{k}-{e}.txt"
    (s!"Pages {k}-{e}", if candidate ∈ fs then some candidate else none) ::
      specPageChunks dir fs (k + 5) (n - 5)
termination_by n
decreasing_by omega

/-- Title and content reference of the leaf built for one page chunk; the
chunk index only feeds the `node_id`, so it does not appear here. -/
def chunkTC (dir : String) (fs : FS) (chunk : List (Nat × String)) :
    String × Option String :=
  let startPage := (chunk.headD (0, "")).1
  let endPage := (chunk.getLastD (0, "")).1
  let candidate := dir ++ s!"/pages_{startPage}-{endPage}.txt"
  (s!"Pages {startPage}-{endPage}",
    if candidate ∈ fs then some candidate else none)

/-! ### Catalog entries (`scripts/catalog.py`) and the schema tree
(`_build_schema_tree` in `scripts/build_tree.py`) -/

/-- A catalog source entry, with exactly the keys built by `add_source`.
`size_kb` (a Python float, `round(size / 1024, 1)`) is modelled as a
rational. -/
structure CatEntry where
  id : String
  filename : String
  original_path : String
  type : String
  category : String
  size_kb : Rat
  strategy : String
  tree_path : String
  converted_path : String
  indexed_at : String
  summary : String
  tags : List String
  doc_nature : String
  sampled : Bool
deriving DecidableEq

/-- A spreadsheet cell value in its serialized form; `none` is Python
`None`. -/
abbrev Cell := Option String

/-- Converter-result sheet dict as consumed by `_build_schema_tree` via
`sheet["name"]`, `sheet["headers"]`, `sheet["row_count"]`,
`sheet["column_count"]`, `sheet.get("sample_rows")` and
`sheet.get("row_labels", [])`.  The sheets written by the xlsx converter
under `src/` carry no `row_labels` key, so that field is `[]` for them. -/
structure SheetDict where
  name : String
  headers : List String
  row_count : Nat
  column_count : Nat
  sample_rows : List (List (String × Cell))
  row_labels : List String
deriving DecidableEq

/-- Python `f"{v}"` of a serialized cell: `None` prints as `"None"`. -/
def cellStr : Cell → String
  | some s => s
  | none => "None"

/-- Modelled from the spec: `get_sheet_hint` is imported by
`_build_schema_tree` from `scripts/converters/xlsx_converter.py`, but it is
defined nowhere under the source tree.  Spec section 4.4 (Schema Tree)
describes its output: `hint` is a generated one-line string of the form
`"Sheet: <name>, contains <row label sample> data, columns: <h1>/<h2>/..."`
(truncated sensibly).  The row label sample is taken here as the first
three row labels joined by `", "`. -/
def get_sheet_hint (sheet : SheetDict) : String :=
  "Sheet: " ++ sheet.name ++ ", contains " ++
    ", ".intercalate (sheet.row_labels.take 3) ++ " data, columns: " ++
    "/".intercalate sheet.headers

/-- Whether a directory exists in the modelled file system: it was created
itself (`mkdir` records the path) or some file lives below it. -/
def dirExists (fs : FS) (dir : String) : Bool :=
  fs.contains dir || fs.any (fun p => (dir ++ "/").isPrefixOf p)

/-- Python `PurePath.stem`: the final suffix is stripped when the last dot
sits strictly inside the name. -/
def fileStem (name : String) : String :=
  let cs := name.data
  let dots := (List.range cs.length).filter (fun i => cs.getD i ' ' = '.')
  match dots.getLast? with
  | some j => if 0 < j ∧ j + 1 < cs.length then String.mk (cs.take j) else name
  | none => name

/-- Python `str.title()` restricted to ASCII letters: the first letter of
each letter run upper-cased, the others lower-cased. -/
def pythonTitleAux : Bool → List Char → List Char
  | _, [] => []
  | prev, c :: rest =>
    if c.isAlpha then
      (if prev then c.toLower else c.toUpper) :: pythonTitleAux true rest
    else c :: pythonTitleAux false rest

def pythonTitle (s : String) : String := String.mk (pythonTitleAux false s.data)

/-- Python `sorted(source_converted_dir.iterdir())` in the modelled file system:
the direct children of the directory, sorted by path.  Every stored path
is a file in this model. -/
def listDirSorted (fs : FS) (dir : String) : List String :=
  (fs.dedup.filter (fun p =>
    (dir ++ "/").isPrefixOf p && !((p.drop (dir.length + 1)).contains '/'))).mergeSort
    (fun a b => a ≤ b)

/-- Python `_files_to_tree_nodes`: one leaf per converted file other than
`full.txt` and `full.md`; the node counter is the enumeration index over
the unfiltered sorted listing, exactly as in the Python loop.  Paths are
already store-relative, so `relative_to` is the identity. -/
def filesToTreeNodes (fs : FS) (dir : String) : List Node :=
  (listDirSorted fs dir).enum.filterMap (fun p =>
    let name := p.2.drop (dir.length + 1)
    if name ≠ "full.txt" ∧ name ≠ "full.md" then
      some (Node.basic (s!"n{p.1 + 1}")
        (pythonTitle ((fileStem name).replace "_" " "))
        (s!"Content from {name}") [] (some p.2))
    else none)

/-- Discriminated view of the converter result dicts, tested in the Python
code with `"sections" in`, `"page_texts" in` and `"sheets" in`. -/
inductive ConverterResult where
  | docSections (sections : List Section)
  | docPages (page_texts : List (Nat × String))
  | sheetsRes (sheets : List SheetDict)
  | rawText

/-- A per-source tree `{id, root}`. -/
structure Tree where
  id : String
  root : Node

/-- The child node `_build_schema_tree` builds for sheet number `i`
(0-based). -/
def schemaSheetNode (sourceConvertedDir : String) (fs : FS) (i : Nat)
    (sheet : SheetDict) : Node :=
  let hint := get_sheet_hint sheet
  let base := s!"{sheet.row_count} rows, {sheet.column_count} columns. Headers: " ++
    ", ".intercalate (sheet.headers.take 8)
  let sheetSummary :=
    if sheet.headers.length > 8 then base ++ s!" (+{sheet.headers.length - 8} more)"
    else base
  let safe := ((sheet.name.replace "/" "_").replace " " "_").toLower
  let mdCandidate := sourceConvertedDir ++ "/sheet_" ++ safe ++ ".md"
  let jsonCandidate := sourceConvertedDir ++ "/sheet_" ++ safe ++ ".json"
  let contentRef :=
    if mdCandidate ∈ fs then some mdCandidate
    else if jsonCandidate ∈ fs then some jsonCandidate
    else none
  let preview :=
    match sheet.sample_rows.head? with
    | some firstRow =>
        ", ".intercalate ((firstRow.take 4).map (fun kv => s!"{kv.1}: {cellStr kv.2}"))
    | none => ""
  Node.mk (s!"n{i + 1}") (s!"Sheet: {sheet.name}") sheetSummary [] contentRef
    (some hint) (if preview.isEmpty then none else some preview)
    (some sheet.headers) (some (sheet.row_labels.take 10)) 0

/-- Python `_build_schema_tree` (`scripts/build_tree.py`): one child per sheet when
the converter result has a `sheets` key, else the converted-file listing;
root summary `"<summary> (<sheet_count> sheets, <total_rows> total rows)"`.
The `summary` key is always present on catalog entries, so the
`.get("summary", ...)` default never fires. -/
def buildSchemaTree (source_id : String) (entry : CatEntry)
    (sourceConvertedDir : String) (fs : FS)
    (converterResult : Option ConverterResult) : Tree :=
  let summary := entry.summary
  let children :=
    match converterResult with
    | some (.sheetsRes sheets) =>
        sheets.enum.map (fun p => schemaSheetNode sourceConvertedDir fs p.1 p.2)
    | _ =>
        if dirExists fs sourceConvertedDir then filesToTreeNodes fs sourceConvertedDir
        else []
  let totalRows :=
    match converterResult with
    | some (.sheetsRes sheets) => (sheets.map (fun s : SheetDict => s.row_count)).sum
    | _ => 0
  let sheetCount :=
    match converterResult with
    | some (.sheetsRes sheets) => sheets.length
    | _ => 0
  ⟨source_id, Node.basic "n0" entry.filename
    (s!"{summary} ({sheetCount} sheets, {totalRows} total rows)") children none⟩

/-- Python `_build_document_tree` (`scripts/build_tree.py`): children from markdown
sections, else PDF page chunks, else the converted-file listing. -/
def buildDocumentTree (source_id : String) (entry : CatEntry)
    (sourceConvertedDir : String) (fs : FS)
    (converterResult : Option ConverterResult) : Tree :=
  let children :=
    match converterResult with
    | some (.docSections sections) => sectionsToTreeNodes sections sourceConvertedDir fs
    | some (.docPages pts) => pagesToTreeNodes pts sourceConvertedDir fs
    | _ =>
        if dirExists fs sourceConvertedDir then filesToTreeNodes fs sourceConvertedDir
        else []
  ⟨source_id, Node.basic "n0" entry.filename entry.summary children none⟩

/-! ### xlsx converter: `scripts/converters/xlsx_converter.py` -/

/-- The per-sheet record built by `xlsx_converter.convert` and serialized to
`sheet_<safe_name>.json`.  The `columns` and `stats` values (floating-point
column statistics from `_analyze_columns`, `_compute_sheet_stats`) are not
modelled; `jsonKeys` lists the keys of the serialized dict in construction
order, including theirs. -/
structure SheetRecord where
  name : String
  headers : List String
  row_count : Nat
  column_count : Nat
  sample_rows : List (List (String × Cell))
  sample_data : String
  jsonKeys : List String
deriving DecidableEq

/-- Python `_serialize_value` on the serialized-cell abstraction: the identity
(numbers, booleans and dates are already carried as their serialized
form). -/
def serializeValue (v : Cell) : Cell := v

/-- Python `_format_sample_data`: `"Row <i>: v1, v2, ..."` for the first three
sample rows and the first six columns, skipping missing values; on the
serialized-cell abstraction the numeric formatting branches do not fire, so
each present value is truncated to 30 characters. -/
def formatSampleData (headers : List String)
    (sampleRows : List (List (String × Cell))) : String :=
  if sampleRows.isEmpty then ""
  else
    "; ".intercalate ((sampleRows.take 3).enum.map (fun p =>
      let vals := (headers.take 6).filterMap (fun h =>
        match (p.2.lookup h).join with
        | some v => some (v.take 30)
        | none => none)
      s!"Row {p.1 + 1}: " ++ ", ".intercalate vals))

/-- The per-sheet record construction in `xlsx_converter.convert`: the first
row gives the headers (a missing header cell `i` is named `col_<i>`), the
remaining rows are data, and the first five data rows become `sample_rows`
(each a zip of headers with the row, the ordered-dict view; a duplicate
header key is kept here rather than collapsed).  The empty-sheet branch has
its own key order. -/
def xlsxConvertSheet (name : String) (rows : List (List Cell)) : SheetRecord :=
  match rows with
  | [] =>
    { name := name, headers := [], row_count := 0, sample_rows := [],
      column_count := 0, sample_data := "",
      jsonKeys := ["name", "headers", "row_count", "sample_rows",
        "column_count", "columns", "stats", "sample_data"] }
  | row0 :: dataRows =>
    let headers := row0.enum.map (fun p =>
      match p.2 with
      | some h => h
      | none => s!"col_{p.1}")
    let sample_rows := (dataRows.take 5).map (fun row =>
      (headers.zip row).map (fun hv => (hv.1, serializeValue hv.2)))
    { name := name, headers := headers, row_count := dataRows.length,
      column_count := headers.length, sample_rows := sample_rows,
      sample_data := formatSampleData headers sample_rows,
      jsonKeys := ["name", "headers", "row_count", "column_count",
        "columns", "sample_rows", "sample_data", "stats"] }

/-- Result of `xlsx_converter.convert`. -/
structure XlsxResult where
  sheets : List SheetRecord
  sheet_count : Nat
  output_files : List String

/-- Sheet names are lowercased with `/` and spaces replaced by `_`.  The
single-character replacements and the lowering are written character-wise
so that terms evaluate inside the kernel. -/
def xlsxSafeName (name : String) : String :=
  String.mk (name.data.map (fun c =>
    if c = '/' then '_' else if c = ' ' then '_' else c.toLower))

/-- Python `xlsx_converter.convert`: one record per sheet of the workbook; with an
output directory, write one `sheet_<safe_name>.json` per sheet and nothing
else. -/
def xlsxConvert (workbook : List (String × List (List Cell)))
    (outputDir : Option String) : XlsxResult :=
  let sheets := workbook.map (fun ws => xlsxConvertSheet ws.1 ws.2)
  let output_files :=
    match outputDir with
    | some dir =>
        sheets.map (fun s => dir ++ "/sheet_" ++ xlsxSafeName s.name ++ ".json")
    | none => []
  ⟨sheets, sheets.length, output_files⟩

/-! ### Catalog operations: `scripts/catalog.py` (and the deterministic
source id of `scripts/detect.py`) -/

/-- The strategy dict attached by `sample.py`, restricted to the keys
`add_source` reads; the heuristic fallback always populates all of them. -/
structure Strategy where
  recommended_approach : String
  summary : String
  tags : List String
  doc_nature : String
deriving DecidableEq

/-- The file card from `detect.py`, restricted to the keys `add_source`
reads; `strategy` is `none` when sampling never attached one
(`file_card.get("strategy") or {}`). -/
structure FileCard where
  id : String
  filename : String
  path : String
  type : String
  category : String
  size_kb : Rat
  sampled : Bool
  strategy : Option Strategy
deriving DecidableEq

/-- Python `strategy.get("recommended_approach", "unknown")`. -/
def stratApproach : Option Strategy → String
  | some s => s.recommended_approach
  | none => "unknown"

/-- Python `strategy.get("summary", "")`. -/
def stratSummary : Option Strategy → String
  | some s => s.summary
  | none => ""

/-- Python `strategy.get("tags", [])`. -/
def stratTags : Option Strategy → List String
  | some s => s.tags
  | none => []

/-- Python `strategy.get("doc_nature", "")`. -/
def stratDocNature : Option Strategy → String
  | some s => s.doc_nature
  | none => ""

/-- The catalog dict `{version, last_updated, sources}`. -/
structure Catalog where
  version : String
  last_updated : String
  sources : List CatEntry
deriving DecidableEq

/-- Python `create_catalog`, with the current UTC instant passed explicitly. -/
def create_catalog (now : String) : Catalog := ⟨"1.0", now, []⟩

/-- Python `find_source`: first entry with the given id. -/
def find_source (catalog : Catalog) (source_id : String) : Option CatEntry :=
  catalog.sources.find? (fun s => s.id == source_id)

/-- The entry dict built by `add_source`; `indexed_at` is `_now_iso()`,
passed in explicitly. -/
def mkEntry (card : FileCard) (converted_path tree_path now : String) : CatEntry :=
  { id := card.id, filename := card.filename, original_path := card.path,
    type := card.type, category := card.category, size_kb := card.size_kb,
    strategy := stratApproach card.strategy, tree_path := tree_path,
    converted_path := converted_path, indexed_at := now,
    summary := stratSummary card.strategy, tags := stratTags card.strategy,
    doc_nature := stratDocNature card.strategy, sampled := card.sampled }

/-- Python `add_source`: build the entry; if an entry with the same id exists,
replace it in place (`sources.index(existing)` equals the index of the
first id match, since dict equality implies id equality), else append. -/
def add_source (catalog : Catalog) (card : FileCard)
    (converted_path tree_path now : String) : Catalog × CatEntry :=
  let entry := mkEntry card converted_path tree_path now
  match find_source catalog card.id with
  | some _ =>
    let idx := catalog.sources.findIdx (fun s => s.id == card.id)
    ({ catalog with sources := catalog.sources.set idx entry }, entry)
  | none => ({ catalog with sources := catalog.sources ++ [entry] }, entry)

/-- Python `remove_source`: drop the first entry with the given id. -/
def remove_source (catalog : Catalog) (source_id : String) : Catalog × Bool :=
  match catalog.sources.findIdx? (fun s => s.id == source_id) with
  | some i => ({ catalog with sources := catalog.sources.eraseIdx i }, true)
  | none => (catalog, false)

/-! ### On-disk write effects: `save_catalog` (`scripts/catalog.py`), the
tree write in `build_tree_for_source` (`scripts/build_tree.py`), the
metadata write in `scripts/build_vectors.py`, and `save_hash_index`
(`scripts/incremental.py`) -/

inductive FsOp where
  | mkdirp (path : String)
  | writeFile (path : String)
  | renameFile (src dst : String)
deriving DecidableEq

/-- Python `Path(path).parent` for the store-relative paths used here. -/
def parentDir (path : String) : String :=
  match (path.splitOn "/").dropLast with
  | [] => "."
  | parts => "/".intercalate parts

/-- Python `save_catalog`: refresh `last_updated` to the current instant, create
the parent directory, then write the catalog JSON directly to the target
path with `path.write_text(...)`. -/
def save_catalog (catalog : Catalog) (path now : String) : Catalog × List FsOp :=
  ({ catalog with last_updated := now },
   [FsOp.mkdirp (parentDir path), FsOp.writeFile path])

/-- The write effects of the tree write in `build_tree_for_source`:
`tree_index_dir.mkdir(parents=True, exist_ok=True)` then
`tree_path.write_text(...)`. -/
def write_tree_ops (tree_index_dir source_id : String) : List FsOp :=
  [FsOp.mkdirp tree_index_dir,
   FsOp.writeFile (tree_index_dir ++ "/" ++ source_id ++ ".tree.json")]

/-- The metadata write in `build_index` and `add_to_index`:
`metadata_path.write_text(...)`. -/
def write_metadata_ops (vector_store_dir : String) : List FsOp :=
  [FsOp.writeFile (vector_store_dir ++ "/metadata.json")]

/-- Python `save_hash_index` in `scripts/incremental.py`: `open(hash_file, 'w')`
plus `json.dump`. -/
def save_hash_index_ops (store_root : String) : List FsOp :=
  [FsOp.writeFile (store_root ++ "/hash_index.json")]

/-- Write-to-temp-then-rename discipline for a target: some distinct
temporary is written and renamed onto the target, and the target path is
never written directly. -/
def atomicReplace (target : String) (ops : List FsOp) : Prop :=
  (∃ tmp, tmp ≠ target ∧ FsOp.writeFile tmp ∈ ops ∧
    FsOp.renameFile tmp target ∈ ops) ∧
  FsOp.writeFile target ∉ ops

/-! ### Ingest pipeline: `ingest_file` and `ingest` in `scripts/ingest.py` -/

/-- The environment outcomes for one input file: whether `detect_file`,
`convert_file`, the raw-text fallback read and `build_tree_for_source`
raise.  `build_tree_for_source` does raise on real inputs: for any
spreadsheet the heuristic path hits the missing `get_sheet_hint` import in
`_build_schema_tree`. -/
structure IngestOutcome where
  card : FileCard
  detectOk : Bool
  convertOk : Bool
  rawReadOk : Bool
  treeOk : Bool

/-- Store state: the modelled file system and the in-memory catalog. -/
structure StoreState where
  fs : FS
  catalog : Catalog

/-- Python `ingest_file`: detect (a detection failure returns `None`); skip
archive/image/unknown; convert into `converted/<id>` — on converter
failure, make that directory and write `full.txt` from the raw bytes when
they are readable; create or update the catalog entry with the known
`tree_path` and `converted_path`; then build the tree, writing
`tree_index/<id>.tree.json` — an exception there is caught and only
logged, so the entry remains with a dangling `tree_path`.  Paths are
store-relative; the converted files other than the directory marker are
abstracted away. -/
def ingest_file (st : StoreState) (o : IngestOutcome) (now : String) :
    StoreState × Option CatEntry :=
  if ¬ o.detectOk then (st, none)
  else if o.card.type = "archive" ∨ o.card.type = "image" ∨
      o.card.type = "unknown" then (st, none)
  else
    let source_id := o.card.id
    let output_dir := "converted/" ++ source_id
    let tree_path := "tree_index/" ++ source_id ++ ".tree.json"
    let fs1 :=
      if o.convertOk then st.fs ++ [output_dir]
      else if o.rawReadOk then st.fs ++ [output_dir, output_dir ++ "/full.txt"]
      else st.fs ++ [output_dir]
    let catalog1 := (add_source st.catalog o.card output_dir tree_path now).1
    let entry := (add_source st.catalog o.card output_dir tree_path now).2
    let fs2 := if o.treeOk then fs1 ++ [tree_path] else fs1
    (⟨fs2, catalog1⟩, some entry)

/-- The batch loop of `ingest` followed by `save_catalog` (the vector index
rebuild touches neither the catalog nor the tree files). -/
def ingest_run (st0 : StoreState) (outcomes : List IngestOutcome)
    (now : String) : StoreState :=
  let st1 := outcomes.foldl (fun st o => (ingest_file st o now).1) st0
  ⟨st1.fs ++ ["catalog.json"], (save_catalog st1.catalog "catalog.json" now).1⟩

/-- The C1 claim at a state: every catalog entry has `tree_path` and
`converted_path` existing on disk. -/
def catalogPathsExist (st : StoreState) : Prop :=
  ∀ e ∈ st.catalog.sources, e.tree_path ∈ st.fs ∧ e.converted_path ∈ st.fs

instance (st : StoreState) : Decidable (catalogPathsExist st) :=
  inferInstanceAs (Decidable (∀ e ∈ st.catalog.sources,
    e.tree_path ∈ st.fs ∧ e.converted_path ∈ st.fs))

/-! ### Vector index: `scripts/build_vectors.py`.  The embedding model is a
black box `encode`; the FAISS flat inner-product index is modelled as the
list of stored vectors, its `search` as exact top-k by inner product. -/

/-- One metadata record, as built by `embed_sources`. -/
structure MetaRecord where
  id : String
  filename : String
  summary : String
  type : String
  category : String
  tags : List String
deriving DecidableEq

/-- Python `_build_embed_text`: join the non-empty parts with `". "`. -/
def build_embed_text (source : CatEntry) : String :=
  let parts : List String :=
    (if source.filename ≠ "" then [source.filename] else []) ++
    (if source.doc_nature ≠ "" then [source.doc_nature.replace "_" " "] else []) ++
    (if source.summary ≠ "" then [source.summary] else []) ++
    (if source.tags ≠ [] then ["Tags: " ++ ", ".intercalate source.tags] else []) ++
    (if source.type ≠ "" ∨ source.category ≠ "" then
      [s!"Type: {source.type} ({source.category})"] else [])
  ". ".intercalate parts

/-- The metadata record for one source. -/
def metaOf (source : CatEntry) : MetaRecord :=
  { id := source.id, filename := source.filename, summary := source.summary,
    type := source.type, category := source.category, tags := source.tags }

/-- Python `embed_sources`: one vector and one metadata record per source, in
order. -/
def embed_sources (encode : String → List Rat) (sources : List CatEntry) :
    List (List Rat) × List MetaRecord :=
  (sources.map (fun s => encode (build_embed_text s)), sources.map metaOf)

/-- The on-disk `(index.faiss, metadata.json)` pair. -/
structure VecStore where
  vecs : List (List Rat)
  metadata : List MetaRecord

/-- Python `build_index`: embed all sources, add all vectors to a fresh flat
index, write both files in parallel order. -/
def build_index (encode : String → List Rat) (sources : List CatEntry) :
    VecStore :=
  ⟨(embed_sources encode sources).1, (embed_sources encode sources).2⟩

/-- The load-existing-or-create-new step of `add_to_index`. -/
def getStore : Option VecStore → VecStore
  | some st => st
  | none => ⟨[], []⟩

/-- Python `add_to_index`: skip sources whose id is already in the metadata, embed
and append the remainder, rewrite both files (unchanged when nothing is
new). -/
def add_to_index (encode : String → List Rat) (existing : Option VecStore)
    (sources : List CatEntry) : VecStore :=
  let store := getStore existing
  let existingIds := store.metadata.map (fun m => m.id)
  let newSources := sources.filter (fun s => !(existingIds.contains s.id))
  if newSources.isEmpty then store
  else ⟨store.vecs ++ (embed_sources encode newSources).1,
        store.metadata ++ (embed_sources encode newSources).2⟩

/-- Inner product. -/
def dotProduct (a b : List Rat) : Rat :=
  ((a.zip b).map (fun p => p.1 * p.2)).sum

/-- Model of `faiss.IndexFlatIP.search` for one query: every stored vector
is scored by inner product with the query and the `(score, index)` pairs
are returned sorted by score descending (ties in stable order), truncated
to `k`.  Indices are integers, as in the FAISS API; with `k ≤ ntotal` all
returned indices are valid positions. -/
def faissSearch (vecs : List (List Rat)) (q : List Rat) (k : Nat) :
    List (Rat × Int) :=
  (((vecs.map (dotProduct q)).enum.map (fun p => (p.2, (p.1 : Int)))).mergeSort
    (fun a b => decide (b.1 ≤ a.1))).take k

/-- One search result row: the metadata record plus `score` and `rank`. -/
structure SearchResult where
  id : String
  filename : String
  summary : String
  type : String
  category : String
  tags : List String
  score : Rat
  rank : Nat
deriving DecidableEq

/-- The record `metadata[idx].copy()` extended with `score` and `rank`. -/
def mkSearchResult (m : MetaRecord) (score : Rat) (rank : Nat) : SearchResult :=
  { id := m.id, filename := m.filename, summary := m.summary,
    type := m.type, category := m.category, tags := m.tags,
    score := score, rank := rank }

/-- The loop body of `search`: skip a hit whose index is out of range, else
append `metadata[idx]` extended with `score` and `rank = position + 1`. -/
def searchStep (metadata : List MetaRecord)
    (results : List SearchResult) (rh : Nat × Rat × Int) : List SearchResult :=
  if rh.2.2 < 0 ∨ (metadata.length : Int) ≤ rh.2.2 then results
  else
    match metadata[rh.2.2.toNat]? with
    | some m => results ++ [mkSearchResult m rh.2.1 (rh.1 + 1)]
    | none => results

/-- Python `search`: `[]` when the index files are missing or the index is empty;
otherwise embed the query, take `k = min(top_k, ntotal)`, run the FAISS
search, and accumulate one result per valid hit. -/
def vsearch (encode : String → List Rat) (store : Option VecStore)
    (query : String) (top_k : Nat) : List SearchResult :=
  match store with
  | none => []
  | some st =>
    if st.vecs.length = 0 then []
    else
      let qv := encode query
      let k := min top_k st.vecs.length
      (faissSearch st.vecs qv k).enum.foldl (searchStep st.metadata) []

/-- The invariants of C8 at one store: one metadata record per vector and
no duplicate ids. -/
def storeInv (st : VecStore) : Prop :=
  st.metadata.length = st.vecs.length ∧
    (st.metadata.map (fun m => m.id)).Nodup

/-! ### Tier-2 reading: `find_node` in `scripts/build_tree.py` and
`read_node_content` in `skills/metadatahub/read_source.py` -/

mutual

/-- Python `find_node`: depth-first search by `node_id` from the root. -/
def findNode (n : Node) (target : String) : Option Node :=
  match n with
  | .mk i t su cs r h pv hd rl lv =>
    if i = target then some (.mk i t su cs r h pv hd rl lv)
    else findNodeList cs target

def findNodeList (l : List Node) (target : String) : Option Node :=
  match l with
  | [] => none
  | c :: rest =>
    match findNode c target with
    | some found => some found
    | none => findNodeList rest target

end

/-- The record returned by `read_node_content`. -/
structure ReadResult where
  source_id : String
  node_id : String
  title : String
  summary : String
  content_ref : Option String
  content : String
deriving DecidableEq

/-- The record built for a found node: `content` is read from the resolved
`content_ref` — pretty-printed through `jsonPretty` for `.json` paths, the
behavior of `json.dumps(json.loads ...)`-with-fallback being abstracted as
a parameter — and is the empty string when the node has no truthy
`content_ref` (`if content_ref:` is false for both `None` and `""`) or the
referenced path does not exist.  `fileAt` maps an existing store-relative
path to its text; decoding with `errors="ignore"` never fails. -/
def mkReadResult (sid nid : String) (node : Node)
    (fileAt : String → Option String) (jsonPretty : String → String) :
    ReadResult :=
  { source_id := sid, node_id := nid, title := node.title,
    summary := node.summary, content_ref := node.content_ref,
    content :=
      match node.content_ref with
      | none => ""
      | some ref =>
        if ref = "" then ""
        else
          match fileAt ref with
          | none => ""
          | some text =>
            if ref.endsWith ".json" then jsonPretty text else text }

/-- Python `read_node_content`: `None` when the tree file or the node is missing,
else the record for the found node. -/
def read_node_content (treeOnDisk : Option Tree)
    (fileAt : String → Option String) (jsonPretty : String → String)
    (source_id node_id : String) : Option ReadResult :=
  match treeOnDisk with
  | none => none
  | some tree =>
    match findNode tree.root node_id with
    | none => none
    | some node => some (mkReadResult source_id node_id node fileAt jsonPretty)

/-! ## Theorems -/

theorem Node.children_mk (i t s : String) (cs : List Node) (r h p : Option String)
    (hd rl : Option (List String)) (lv : Nat) :
    (Node.mk i t s cs r h p hd rl lv).children = cs := rfl

theorem Node.level_mk (i t s : String) (cs : List Node) (r h p : Option String)
    (hd rl : Option (List String)) (lv : Nat) :
    (Node.mk i t s cs r h p hd rl lv).level = lv := rfl

theorem descendants_def (n : Node) : descendants n = descList n.children := by
  cases n; rfl

theorem nodeCount_def (n : Node) : nodeCount n = 1 + nodeListCount n.children := by
  cases n; rfl

theorem mem_descList {d : Node} : ∀ {l : List Node},
    d ∈ descList l ↔ ∃ c ∈ l, d = c ∨ d ∈ descendants c := by
  intro l
  induction l with
  | nil => simp [descList]
  | cons c rest ih =>
    simp only [descList, List.mem_cons, List.mem_append, ih]
    constructor
    · rintro (h | h | ⟨c', hc', h'⟩)
      · exact ⟨c, by simp, Or.inl h⟩
      · exact ⟨c, by simp, Or.inr h⟩
      · exact ⟨c', by simp [hc'], h'⟩
    · rintro ⟨c', hc' | hc', h'⟩
      · subst hc'
        rcases h' with h' | h'
        · exact Or.inl h'
        · exact Or.inr (Or.inl h')
      · exact Or.inr (Or.inr ⟨c', hc', h'⟩)

/-- In a well-formed subtree, every strict descendant has a strictly larger
level than the node itself. -/
theorem NodeWf.lt_of_mem_descendants {n : Node} (h : NodeWf n) :
    ∀ d ∈ descendants n, n.level < d.level := by
  induction h with
  | mk m hlt hwf ih =>
    intro d hd
    rw [descendants_def, mem_descList] at hd
    obtain ⟨c, hc, heq | hdc⟩ := hd
    · exact heq ▸ hlt c hc
    · exact lt_trans (hlt c hc) (ih c hc d hdc)

/-- Well-formedness is inherited by every node of the subtree. -/
theorem NodeWf.of_mem_subtree {n : Node} (h : NodeWf n) :
    ∀ p ∈ subtreeNodes n, NodeWf p := by
  induction h with
  | mk m hlt hwf ih =>
    intro p hp
    rw [subtreeNodes, List.mem_cons] at hp
    rcases hp with heq | hp
    · exact heq ▸ NodeWf.mk m hlt hwf
    · rw [descendants_def, mem_descList] at hp
      obtain ⟨c, hc, heq | hpc⟩ := hp
      · exact ih c hc p (by rw [subtreeNodes, List.mem_cons]; exact Or.inl heq)
      · exact ih c hc p (by rw [subtreeNodes, List.mem_cons]; exact Or.inr hpc)

theorem headingPositions_length (lines : List String) :
    ∀ i, (headingPositions i lines).length = (lines.filter isHeadingLine).length := by
  induction lines with
  | nil => intro i; rfl
  | cons line rest ih =>
    intro i
    by_cases h : isHeadingLine line
    · obtain ⟨p, hp⟩ := Option.isSome_iff_exists.mp h
      simp [headingPositions, hp, List.filter_cons, h, ih]
    · have hp : headingInfo line = none := by
        rcases hh : headingInfo line with _ | p
        · rfl
        · exact absurd (by simp [isHeadingLine, hh]) h
      simp [headingPositions, hp, List.filter_cons, h, ih]

theorem withEnds_length (totalLines : Nat) (ps : List (Nat × Nat × String)) :
    (withEnds totalLines ps).length = ps.length := by
  induction ps with
  | nil => rfl
  | cons p rest ih =>
    obtain ⟨i, lv, t⟩ := p
    simp [withEnds, ih]

/-- The number of sections equals the number of heading lines. -/
theorem extractSections_length (lines : List String) :
    (extractSections lines).length = (lines.filter isHeadingLine).length := by
  rw [extractSections, withEnds_length, headingPositions_length]

theorem nodeListCount_append (a b : List Node) :
    nodeListCount (a ++ b) = nodeListCount a + nodeListCount b := by
  induction a with
  | nil => simp [nodeListCount]
  | cons c rest ih => simp [nodeListCount, ih]; omega

theorem Node.appendChild_children (p c : Node) :
    (p.appendChild c).children = p.children ++ [c] := by
  cases p; rfl

theorem Node.appendChild_level (p c : Node) :
    (p.appendChild c).level = p.level := by
  cases p; rfl

theorem nodeCount_appendChild (p c : Node) :
    nodeCount (p.appendChild c) = nodeCount p + nodeCount c := by
  rw [nodeCount_def, nodeCount_def, Node.appendChild_children, nodeListCount_append]
  simp [nodeListCount]; omega

theorem sectionMakeNode_level (counter : Nat) (sec : Section) (d : String) (fs : FS) :
    (sectionMakeNode counter sec d fs).level = sec.level := rfl

theorem sectionMakeNode_children (counter : Nat) (sec : Section) (d : String) (fs : FS) :
    (sectionMakeNode counter sec d fs).children = [] := rfl

theorem popWhile_nil (level : Nat) (roots : List Node) :
    popWhile level (roots, []) = (roots, []) := by
  rw [popWhile.eq_def]

theorem popWhile_last (level : Nat) (roots : List Node) (lv : Nat) (n : Node)
    (h : level ≤ lv) :
    popWhile level (roots, [(lv, n)]) = popWhile level (roots ++ [n], []) := by
  rw [popWhile.eq_def]; simp [h]

theorem popWhile_pop (level : Nat) (roots : List Node) (lv : Nat) (n : Node)
    (plv : Nat) (p : Node) (rest' : List (Nat × Node)) (h : level ≤ lv) :
    popWhile level (roots, (lv, n) :: (plv, p) :: rest') =
      popWhile level (roots, (plv, p.appendChild n) :: rest') := by
  rw [popWhile.eq_def]; simp [h]

theorem popWhile_stop (level : Nat) (roots : List Node) (lv : Nat) (n : Node)
    (rest : List (Nat × Node)) (h : ¬ level ≤ lv) :
    popWhile level (roots, (lv, n) :: rest) = (roots, (lv, n) :: rest) := by
  rw [popWhile.eq_def]; simp [h]

theorem popWhile_stCount (level : Nat) (st : List Node × List (Nat × Node)) :
    stCount (popWhile level st) = stCount st := by
  induction st using popWhile.induct with
  | level => exact level
  | case1 roots => rw [popWhile_nil]
  | case2 roots lv n hle ih =>
    rw [popWhile_last level roots lv n hle, ih]
    simp only [stCount, nodeListCount_append, nodeListCount, List.map_cons,
      List.map_nil, List.sum_cons, List.sum_nil]
    omega
  | case3 roots lv n hle plv p rest' ih =>
    rw [popWhile_pop level roots lv n plv p rest' hle, ih]
    simp only [stCount, List.map_cons, List.sum_cons, nodeCount_appendChild]
    omega
  | case4 roots lv n rest hle =>
    rw [popWhile_stop level roots lv n rest hle]

theorem frameOk_wf {fr : Nat × Node} (h : frameOk fr) : NodeWf fr.2 :=
  NodeWf.mk _ h.2.1 h.2.2

theorem popWhile_inv (level : Nat) (st : List Node × List (Nat × Node)) :
    StInv st → StInv (popWhile level st) ∧
      ∀ fr ∈ (popWhile level st).2.head?, fr.1 < level := by
  induction st using popWhile.induct with
  | level => exact level
  | case1 roots =>
    intro h
    rw [popWhile_nil]
    exact ⟨h, by simp⟩
  | case2 roots lv n hle ih =>
    intro h
    rw [popWhile_last level roots lv n hle]
    apply ih
    obtain ⟨hroots, hframes, hchain⟩ := h
    refine ⟨?_, by simp, by simp⟩
    intro r hr
    rcases List.mem_append.mp hr with hr | hr
    · exact hroots r hr
    · have heq : r = n := List.mem_singleton.mp hr
      subst heq
      exact frameOk_wf (hframes (lv, r) (by simp))
  | case3 roots lv n hle plv p rest' ih =>
    intro h
    rw [popWhile_pop level roots lv n plv p rest' hle]
    apply ih
    obtain ⟨hroots, hframes, hchain⟩ := h
    have hfrn : frameOk (lv, n) := hframes (lv, n) (by simp)
    have hfrp : frameOk (plv, p) := hframes (plv, p) (by simp)
    have hplv : plv < lv := (List.chain'_cons.mp hchain).1
    refine ⟨hroots, ?_, ?_⟩
    · intro fr hfr
      rcases List.mem_cons.mp hfr with heq | hfr
      · subst heq
        refine ⟨?_, ?_, ?_⟩
        · rw [Node.appendChild_level]; exact hfrp.1
        · intro c hc
          rw [Node.appendChild_children] at hc
          rw [Node.appendChild_level]
          rcases List.mem_append.mp hc with hc | hc
          · exact hfrp.2.1 c hc
          · have heq2 : c = n := List.mem_singleton.mp hc
            subst heq2
            have h1 : plv = p.level := hfrp.1
            have h2 : lv = c.level := hfrn.1
            omega
        · intro c hc
          rw [Node.appendChild_children] at hc
          rcases List.mem_append.mp hc with hc | hc
          · exact hfrp.2.2 c hc
          · have heq2 : c = n := List.mem_singleton.mp hc
            subst heq2
            exact frameOk_wf hfrn
      · exact hframes fr (by simp [hfr])
    · have hch : List.Chain' (fun a b => b.1 < a.1) ((plv, p) :: rest') :=
        (List.chain'_cons'.mp hchain).2
      rcases rest' with _ | ⟨q, rest''⟩
      · simp
      · exact List.chain'_cons.mpr
          ⟨(List.chain'_cons.mp hch).1, (List.chain'_cons.mp hch).2⟩
  | case4 roots lv n rest hle =>
    intro h
    rw [popWhile_stop level roots lv n rest hle]
    refine ⟨h, ?_⟩
    intro fr hfr
    simp only [List.head?_cons, Option.mem_def, Option.some.injEq] at hfr
    subst hfr
    omega

theorem sectionsStep_inv (d : String) (fs : FS)
    (st : List Node × List (Nat × Node)) (isec : Nat × Section)
    (h : StInv st) : StInv (sectionsStep d fs st isec) := by
  obtain ⟨hinv, hhead⟩ := popWhile_inv isec.2.level st h
  obtain ⟨hroots, hframes, hchain⟩ := hinv
  refine ⟨hroots, ?_, ?_⟩
  · intro fr hfr
    rcases List.mem_cons.mp hfr with rfl | hfr
    · exact ⟨(sectionMakeNode_level _ _ _ _).symm,
        by simp [sectionMakeNode_children], by simp [sectionMakeNode_children]⟩
    · exact hframes fr hfr
  · refine List.chain'_cons'.mpr ⟨?_, hchain⟩
    intro b hb
    exact hhead b hb

theorem sectionsStep_stCount (d : String) (fs : FS)
    (st : List Node × List (Nat × Node)) (isec : Nat × Section) :
    stCount (sectionsStep d fs st isec) = stCount st + 1 := by
  unfold sectionsStep
  simp only [stCount, List.map_cons, List.sum_cons]
  have hpop := popWhile_stCount isec.2.level st
  have hcount : nodeCount (sectionMakeNode (isec.1 + 1) isec.2 d fs) = 1 := by
    rw [nodeCount_def, sectionMakeNode_children]; rfl
  simp only [hcount]
  have hpop' : nodeListCount (popWhile isec.2.level st).1 +
      ((popWhile isec.2.level st).2.map (fun fr => nodeCount fr.2)).sum =
      nodeListCount st.1 + (st.2.map (fun fr => nodeCount fr.2)).sum := hpop
  omega

theorem foldl_sectionsStep_inv (d : String) (fs : FS)
    (l : List (Nat × Section)) :
    ∀ st, StInv st → StInv (l.foldl (sectionsStep d fs) st) := by
  induction l with
  | nil => intro st h; exact h
  | cons x rest ih =>
    intro st h
    exact ih _ (sectionsStep_inv d fs st x h)

theorem foldl_sectionsStep_stCount (d : String) (fs : FS)
    (l : List (Nat × Section)) :
    ∀ st, stCount (l.foldl (sectionsStep d fs) st) = stCount st + l.length := by
  induction l with
  | nil => intro st; simp
  | cons x rest ih =>
    intro st
    simp only [List.foldl_cons, List.length_cons, ih, sectionsStep_stCount]
    omega

/-- After draining with level 0 from an invariant-satisfying state, the
stack is empty: a surviving head frame would need a negative level. -/
theorem popWhile_zero_stack (st : List Node × List (Nat × Node))
    (h : StInv st) : (popWhile 0 st).2 = [] := by
  have hhead := (popWhile_inv 0 st h).2
  rcases hnil : (popWhile 0 st).2 with _ | ⟨fr, rest⟩
  · rfl
  · have := hhead fr (by simp [hnil])
    omega

/-- The built forest has exactly one node per section. -/
theorem sectionsToTreeNodes_count (sections : List Section)
    (d : String) (fs : FS) :
    nodeListCount (sectionsToTreeNodes sections d fs) = sections.length := by
  unfold sectionsToTreeNodes
  by_cases h : sections.isEmpty
  · simp [h, nodeListCount]
    rw [List.isEmpty_iff] at h
    simp [h]
  · simp only [h, if_neg, Bool.false_eq_true, not_false_iff]
    have hcnt := foldl_sectionsStep_stCount d fs sections.enum ([], [])
    have hzero : stCount ([], []) = 0 := rfl
    have hinv : StInv ([], []) := ⟨by simp, by simp, by simp⟩
    have hfold := foldl_sectionsStep_inv d fs sections.enum ([], []) hinv
    have hdrain := popWhile_stCount 0
      (sections.enum.foldl (sectionsStep d fs) ([], []))
    have hstack := popWhile_zero_stack
      (sections.enum.foldl (sectionsStep d fs) ([], [])) hfold
    have hempty : stCount (popWhile 0 (sections.enum.foldl (sectionsStep d fs) ([], []))) =
        nodeListCount (popWhile 0 (sections.enum.foldl (sectionsStep d fs) ([], []))).1 := by
      simp [stCount, hstack]
    rw [hempty] at hdrain
    rw [hdrain, hcnt, hzero]
    simp

/-- Every tree in the built forest is a well-formed heading hierarchy. -/
theorem sectionsToTreeNodes_wf (sections : List Section)
    (d : String) (fs : FS) :
    ∀ r ∈ sectionsToTreeNodes sections d fs, NodeWf r := by
  unfold sectionsToTreeNodes
  by_cases h : sections.isEmpty
  · simp [h]
  · simp only [h, if_neg, Bool.false_eq_true, not_false_iff]
    have hinv : StInv ([], []) := ⟨by simp, by simp, by simp⟩
    have hfold := foldl_sectionsStep_inv d fs sections.enum ([], []) hinv
    have hdrained := (popWhile_inv 0 _ hfold).1
    exact hdrained.1

/-- C5: for every Markdown input, the forest built by
`_sections_to_tree_nodes` from the sections parsed by `_extract_sections`
has exactly one node per parsed heading, and every strict descendant of a
node sits at a strictly larger heading level, per the stack algorithm that
pops until the top of the stack has a smaller level. -/
theorem C5_section_hierarchy (lines : List String) (d : String) (fs : FS) :
    nodeListCount (sectionsToTreeNodes (extractSections lines) d fs) =
      (lines.filter isHeadingLine).length ∧
    ∀ r ∈ sectionsToTreeNodes (extractSections lines) d fs,
      ∀ p ∈ subtreeNodes r, ∀ q ∈ descendants p, p.level < q.level := by
  refine ⟨?_, ?_⟩
  · rw [sectionsToTreeNodes_count, extractSections_length]
  · intro r hr p hp q hq
    have hwf := sectionsToTreeNodes_wf (extractSections lines) d fs r hr
    exact (hwf.of_mem_subtree p hp).lt_of_mem_descendants q hq

/-- Witness for C5 on the four-heading document of the spec scenario. -/
theorem C5_section_hierarchy_witness :
    nodeListCount (sectionsToTreeNodes
        (extractSections ["# A", "## A.1", "## A.2", "# B"]) "converted/src_m" []) = 4 := by
  have h := (C5_section_hierarchy ["# A", "## A.1", "## A.2", "# B"] "converted/src_m" []).1
  rw [h]
  decide

theorem numberFrom_take (m : Nat) : ∀ (k : Nat) (l : List String),
    (numberFrom k l).take m = numberFrom k (l.take m) := by
  induction m with
  | zero => intro k l; simp [numberFrom]
  | succ m ih =>
    intro k l
    cases l with
    | nil => simp [numberFrom]
    | cons t rest => simp [numberFrom, List.take_succ_cons, ih]

theorem numberFrom_drop (m : Nat) : ∀ (k : Nat) (l : List String),
    (numberFrom k l).drop m = numberFrom (k + m) (l.drop m) := by
  induction m with
  | zero => intro k l; simp
  | succ m ih =>
    intro k l
    cases l with
    | nil => simp [numberFrom]
    | cons t rest =>
      simp only [numberFrom, List.drop_succ_cons, ih]
      congr 1
      omega

theorem numberFrom_length (l : List String) : ∀ k, (numberFrom k l).length = l.length := by
  induction l with
  | nil => intro k; rfl
  | cons t rest ih => intro k; simp [numberFrom, ih]

theorem numberFrom_isEmpty (l : List String) (k : Nat) :
    (numberFrom k l).isEmpty = l.isEmpty := by
  cases l <;> simp [numberFrom]

theorem numberFrom_headD (l : List String) (k : Nat) (d : Nat × String)
    (h : l ≠ []) : ((numberFrom k l).headD d).1 = k := by
  cases l with
  | nil => exact absurd rfl h
  | cons t rest => rfl

theorem numberFrom_getLastD (l : List String) : ∀ (k : Nat) (d : Nat × String),
    l ≠ [] → ((numberFrom k l).getLastD d).1 = k + l.length - 1 := by
  induction l with
  | nil => intro k d h; exact absurd rfl h
  | cons t rest ih =>
    intro k d h
    cases hr : rest with
    | nil => simp [numberFrom, hr]
    | cons u rest' =>
      subst hr
      have hne : u :: rest' ≠ ([] : List String) := by simp
      have hstep : (numberFrom k (t :: u :: rest')).getLastD d =
          (numberFrom (k + 1) (u :: rest')).getLastD (k, t) := by
        rw [show numberFrom k (t :: u :: rest') =
          (k, t) :: numberFrom (k + 1) (u :: rest') from rfl, List.getLastD_cons]
      rw [hstep, ih (k + 1) (k, t) hne]
      simp only [List.length_cons]
      omega

theorem mkPageTexts_eq_numberFrom (texts : List String) :
    mkPageTexts texts = numberFrom 1 texts := by
  have haux : ∀ (l : List String) (i : Nat),
      (List.enumFrom i l).map (fun p => (p.1 + 1, p.2)) = numberFrom (i + 1) l := by
    intro l
    induction l with
    | nil => intro i; rfl
    | cons t rest ih => intro i; simp [List.enumFrom, numberFrom, ih]
  simpa [mkPageTexts, List.enum] using haux texts 0

theorem chunksOf5_length {α : Type} : ∀ (n : Nat) (l : List α), l.length = n →
    (chunksOf5 l).length = (n + 4) / 5 := by
  intro n
  induction n using Nat.strong_induction_on with
  | _ n ih =>
    intro l hlen
    cases l with
    | nil =>
      have hn : n = 0 := by simpa using hlen.symm
      rw [chunksOf5]
      simp [hn]
    | cons a rest =>
      rw [chunksOf5, if_neg (by simp)]
      have hdrop : ((a :: rest).drop 5).length = n - 5 := by
        simp only [List.length_drop, ← hlen]
      have hpos : 0 < n := by rw [← hlen]; simp
      rw [List.length_cons, ih (n - 5) (by omega) _ hdrop]
      omega

theorem pagesToTreeNodes_map_tc (pts : List (Nat × String)) (dir : String)
    (fs : FS) :
    (pagesToTreeNodes pts dir fs).map (fun nd => (nd.title, nd.content_ref)) =
      (chunksOf5 pts).map (chunkTC dir fs) := by
  have haux : ∀ (l : List (List (Nat × String))) (i : Nat),
      ((List.enumFrom i l).map (fun jc =>
        let startPage := (jc.2.headD (0, "")).1
        let endPage := (jc.2.getLastD (0, "")).1
        let previewParts := jc.2.filterMap (fun pt =>
          let snippet := ((pt.2.take 100).replace "\n" " ").trim
          if snippet.isEmpty then none else some snippet)
        let preview := ("; ".intercalate previewParts).take 200
        let candidate := dir ++ s!"/pages_{startPage}-{endPage}.txt"
        Node.basic (s!"n{jc.1 + 1}") (s!"Pages {startPage}-{endPage}")
          (if preview.isEmpty then s!"Pages {startPage} to {endPage}" else preview)
          [] (if candidate ∈ fs then some candidate else none))).map
            (fun nd => (nd.title, nd.content_ref)) =
        l.map (chunkTC dir fs) := by
    intro l
    induction l with
    | nil => intro i; rfl
    | cons c rest ih =>
      intro i
      simp only [List.enumFrom, List.map_cons, ih]
      rfl
  simpa [pagesToTreeNodes, List.enum] using haux (chunksOf5 pts) 0

/-- The page-chunk leaves match the spec description of titles and content
references, pages being numbered from `k`. -/
theorem pagesToTreeNodes_spec (dir : String) (fs : FS) :
    ∀ (n : Nat) (texts : List String) (k : Nat), texts.length = n →
      (pagesToTreeNodes (numberFrom k texts) dir fs).map
          (fun nd => (nd.title, nd.content_ref)) =
        specPageChunks dir fs k n := by
  intro n
  induction n using Nat.strong_induction_on with
  | _ n ih =>
    intro texts k hlen
    rw [pagesToTreeNodes_map_tc]
    cases texts with
    | nil =>
      simp at hlen
      subst hlen
      rw [specPageChunks]
      simp [numberFrom, chunksOf5]
    | cons t rest =>
      simp only [List.length_cons] at hlen
      have hpos : 0 < n := by omega
      rw [specPageChunks, if_neg (by omega)]
      have hunfold : chunksOf5 (numberFrom k (t :: rest)) =
          numberFrom k ((t :: rest).take 5) ::
            chunksOf5 (numberFrom (k + 5) ((t :: rest).drop 5)) := by
        rw [chunksOf5, if_neg (by simp [numberFrom_isEmpty])]
        rw [numberFrom_take, numberFrom_drop]
      have htake_ne : ((t :: rest).take 5) ≠ ([] : List String) := by simp
      have hhead := numberFrom_headD ((t :: rest).take 5) k (0, "") htake_ne
      have hlast := numberFrom_getLastD ((t :: rest).take 5) k (0, "") htake_ne
      have htklen : ((t :: rest).take 5).length = min 5 n := by
        simp only [List.length_take, List.length_cons]
        omega
      rw [htklen] at hlast
      have hdroplen : ((t :: rest).drop 5).length = n - 5 := by
        simp only [List.length_drop, List.length_cons]
        omega
      have hih := ih (n - 5) (by omega) ((t :: rest).drop 5) (k + 5) hdroplen
      rw [pagesToTreeNodes_map_tc] at hih
      rw [hunfold, List.map_cons, hih]
      congr 1
      simp only [chunkTC, hhead, hlast]

theorem pagesToTreeNodes_length (pts : List (Nat × String)) (dir : String)
    (fs : FS) :
    (pagesToTreeNodes pts dir fs).length = (pts.length + 4) / 5 := by
  unfold pagesToTreeNodes
  rw [List.length_map, List.enum_length]
  exact chunksOf5_length pts.length pts rfl

/-- C9: a 12-page PDF yields three page-chunk leaves titled
`"Pages 1-5"`, `"Pages 6-10"`, `"Pages 11-12"`, each with a `content_ref`
ending in the matching `pages_*.txt` written by the PDF converter; in
general the converter writes one page chunk file per five pages and the
tree builder emits one leaf per chunk in page order (`specPageChunks`). -/
theorem C9_pdf_chunking (texts : List String) (h12 : texts.length = 12) :
    ((pagesToTreeNodes (mkPageTexts texts) "converted/src_pdf12"
        (pdfOutputFiles "converted/src_pdf12" 12)).map
          (fun nd => (nd.title, nd.content_ref)) =
      [("Pages 1-5", some "converted/src_pdf12/pages_1-5.txt"),
       ("Pages 6-10", some "converted/src_pdf12/pages_6-10.txt"),
       ("Pages 11-12", some "converted/src_pdf12/pages_11-12.txt")]) ∧
    (∀ (texts' : List String) (dir : String) (fs : FS),
      (pagesToTreeNodes (mkPageTexts texts') dir fs).map
          (fun nd => (nd.title, nd.content_ref)) =
        specPageChunks dir fs 1 texts'.length ∧
      (pagesToTreeNodes (mkPageTexts texts') dir fs).length =
        (texts'.length + 4) / 5 ∧
      (pdfOutputFiles dir texts'.length).length =
        1 + (texts'.length + 4) / 5) := by
  constructor
  · rw [mkPageTexts_eq_numberFrom,
      pagesToTreeNodes_spec "converted/src_pdf12" _ 12 texts 1 h12]
    simp [specPageChunks, pdfOutputFiles, List.range_succ]
    decide
  · intro texts' dir fs
    refine ⟨?_, ?_, ?_⟩
    · rw [mkPageTexts_eq_numberFrom,
        pagesToTreeNodes_spec dir fs texts'.length texts' 1 rfl]
    · rw [pagesToTreeNodes_length, mkPageTexts_eq_numberFrom, numberFrom_length]
    · simp [pdfOutputFiles]
      omega

/-- Witness for C9 at a concrete 12-page document. -/
theorem C9_pdf_chunking_witness :
    (pagesToTreeNodes (mkPageTexts (List.replicate 12 "page text"))
        "converted/src_pdf12" (pdfOutputFiles "converted/src_pdf12" 12)).map
          (fun nd => (nd.title, nd.content_ref)) =
      [("Pages 1-5", some "converted/src_pdf12/pages_1-5.txt"),
       ("Pages 6-10", some "converted/src_pdf12/pages_6-10.txt"),
       ("Pages 11-12", some "converted/src_pdf12/pages_11-12.txt")] :=
  (C9_pdf_chunking (List.replicate 12 "page text") (by simp)).1

theorem toString_str (s : String) : toString s = s := rfl

theorem get_sheet_hint_name_infix (sheet : SheetDict) :
    List.IsInfix ("Sheet: " ++ sheet.name).data (get_sheet_hint sheet).data := by
  refine List.IsPrefix.isInfix ⟨(", contains " ++
    ", ".intercalate (sheet.row_labels.take 3) ++ " data, columns: " ++
    "/".intercalate sheet.headers).data, ?_⟩
  simp [get_sheet_hint, String.data_append]

theorem get_sheet_hint_columns_infix (sheet : SheetDict) :
    List.IsInfix ("/".intercalate sheet.headers).data (get_sheet_hint sheet).data := by
  refine List.IsSuffix.isInfix ⟨("Sheet: " ++ sheet.name ++ ", contains " ++
    ", ".intercalate (sheet.row_labels.take 3) ++ " data, columns: ").data, ?_⟩
  simp [get_sheet_hint, String.data_append]

theorem enumFrom_map_forall₂ {α β : Type} (P : β → α → Prop)
    (g : Nat → α → β) (h : ∀ j s, P (g j s) s) :
    ∀ (l : List α) (i : Nat),
      List.Forall₂ P ((List.enumFrom i l).map (fun p => g p.1 p.2)) l := by
  intro l
  induction l with
  | nil => intro i; simp
  | cons a rest ih =>
    intro i
    simp only [List.enumFrom, List.map_cons]
    exact List.Forall₂.cons (h i a) (ih (i + 1))

/-- C2: for a spreadsheet source with at least one sheet, the heuristic
schema tree has root summary
`"<summary> (<sheet_count> sheets, <total_rows> total rows)"` and one child
per sheet titled `"Sheet: <name>"`, each carrying the generated one-line
hint that names the sheet and its `/`-joined columns. -/
theorem C2_schema_tree (sid : String) (entry : CatEntry)
    (sheets : List SheetDict) (dir : String) (fs : FS) (hne : sheets ≠ []) :
    (buildSchemaTree sid entry dir fs (some (.sheetsRes sheets))).root.summary =
      entry.summary ++ " (" ++ toString sheets.length ++ " sheets, " ++
        toString (sheets.map (fun s : SheetDict => s.row_count)).sum ++ " total rows)" ∧
    List.Forall₂ (fun child sheet =>
        child.title = "Sheet: " ++ sheet.name ∧
        child.hint = some (get_sheet_hint sheet) ∧
        ∃ hint, child.hint = some hint ∧
          List.IsInfix ("Sheet: " ++ sheet.name).data hint.data ∧
          List.IsInfix ("/".intercalate sheet.headers).data hint.data)
      (buildSchemaTree sid entry dir fs (some (.sheetsRes sheets))).root.children
      sheets := by
  constructor
  · apply String.ext
    simp [buildSchemaTree, Node.basic, Node.summary, String.data_append,
      toString_str, List.append_assoc]
  · have hchildren :
        (buildSchemaTree sid entry dir fs (some (.sheetsRes sheets))).root.children =
          sheets.enum.map (fun p => schemaSheetNode dir fs p.1 p.2) := rfl
    rw [hchildren, List.enum]
    apply enumFrom_map_forall₂
    intro j sheet
    have htitle : (schemaSheetNode dir fs j sheet).title = "Sheet: " ++ sheet.name := by
      apply String.ext
      simp [schemaSheetNode, Node.title, String.data_append, toString_str]
    exact ⟨htitle, rfl, get_sheet_hint sheet, rfl,
      get_sheet_hint_name_infix sheet, get_sheet_hint_columns_infix sheet⟩

/-- Witness for C2 on the two-sheet workbook of the spec scenario:
`"North America"` with 100 data rows over `date`/`product`/`amount`, and an
empty `"Europe"`: the root summary carries `"2 sheets, 100 total rows"`,
the first child is titled `"Sheet: North America"`, and its hint contains
the sheet name and `"date/product/amount"`. -/
theorem C2_schema_tree_witness :
    (buildSchemaTree "src_xlsx01"
        { id := "src_xlsx01", filename := "sales.xlsx", original_path := "",
          type := "xlsx", category := "spreadsheet", size_kb := 12,
          strategy := "schema_index", tree_path := "", converted_path := "",
          indexed_at := "", summary := "Quarterly sales data",
          tags := ["sales"], doc_nature := "", sampled := false }
        "converted/src_xlsx01" []
        (some (.sheetsRes
          [{ name := "North America", headers := ["date", "product", "amount"],
             row_count := 100, column_count := 3, sample_rows := [], row_labels := [] },
           { name := "Europe", headers := [], row_count := 0, column_count := 0,
             sample_rows := [], row_labels := [] }]))).root.summary =
      "Quarterly sales data" ++ " (" ++ toString (2 : Nat) ++ " sheets, " ++
        toString (100 : Nat) ++ " total rows)" ∧
    List.IsInfix "2 sheets, 100 total rows".data
      (buildSchemaTree "src_xlsx01"
        { id := "src_xlsx01", filename := "sales.xlsx", original_path := "",
          type := "xlsx", category := "spreadsheet", size_kb := 12,
          strategy := "schema_index", tree_path := "", converted_path := "",
          indexed_at := "", summary := "Quarterly sales data",
          tags := ["sales"], doc_nature := "", sampled := false }
        "converted/src_xlsx01" []
        (some (.sheetsRes
          [{ name := "North America", headers := ["date", "product", "amount"],
             row_count := 100, column_count := 3, sample_rows := [], row_labels := [] },
           { name := "Europe", headers := [], row_count := 0, column_count := 0,
             sample_rows := [], row_labels := [] }]))).root.summary.data ∧
    ((buildSchemaTree "src_xlsx01"
        { id := "src_xlsx01", filename := "sales.xlsx", original_path := "",
          type := "xlsx", category := "spreadsheet", size_kb := 12,
          strategy := "schema_index", tree_path := "", converted_path := "",
          indexed_at := "", summary := "Quarterly sales data",
          tags := ["sales"], doc_nature := "", sampled := false }
        "converted/src_xlsx01" []
        (some (.sheetsRes
          [{ name := "North America", headers := ["date", "product", "amount"],
             row_count := 100, column_count := 3, sample_rows := [], row_labels := [] },
           { name := "Europe", headers := [], row_count := 0, column_count := 0,
             sample_rows := [], row_labels := [] }]))).root.children.map
      Node.title).head? = some "Sheet: North America" ∧
    List.IsInfix "Sheet: North America".data
      (get_sheet_hint
        { name := "North America", headers := ["date", "product", "amount"],
          row_count := 100, column_count := 3, sample_rows := [],
          row_labels := [] }).data ∧
    List.IsInfix "date/product/amount".data
      (get_sheet_hint
        { name := "North America", headers := ["date", "product", "amount"],
          row_count := 100, column_count := 3, sample_rows := [],
          row_labels := [] }).data := by
  refine ⟨?_, by decide, by decide, by decide, by decide⟩
  have h := (C2_schema_tree "src_xlsx01"
    { id := "src_xlsx01", filename := "sales.xlsx", original_path := "",
      type := "xlsx", category := "spreadsheet", size_kb := 12,
      strategy := "schema_index", tree_path := "", converted_path := "",
      indexed_at := "", summary := "Quarterly sales data",
      tags := ["sales"], doc_nature := "", sampled := false }
    [{ name := "North America", headers := ["date", "product", "amount"],
       row_count := 100, column_count := 3, sample_rows := [], row_labels := [] },
     { name := "Europe", headers := [], row_count := 0, column_count := 0,
       sample_rows := [], row_labels := [] }]
    "converted/src_xlsx01" [] (by simp)).1
  rw [h]
  rfl

/-- C3 as stated is false on the code: at this concrete workbook, `convert`
writes only the per-sheet JSON file — no combined `full.md` and no
per-sheet markdown — and the serialized record carries no `row_labels`
key. -/
theorem C3_counterexample :
    (xlsxConvert [("Sales", [[some "Date", some "Amount"],
        [some "2025-01-05", some "12500"]])] (some "converted/src_x")).output_files =
      ["converted/src_x/sheet_sales.json"] ∧
    "converted/src_x/full.md" ∉
      (xlsxConvert [("Sales", [[some "Date", some "Amount"],
        [some "2025-01-05", some "12500"]])] (some "converted/src_x")).output_files ∧
    (∀ f ∈ (xlsxConvert [("Sales", [[some "Date", some "Amount"],
        [some "2025-01-05", some "12500"]])] (some "converted/src_x")).output_files,
      ¬ List.IsSuffix ".md".data f.data) ∧
    ∀ r ∈ (xlsxConvert [("Sales", [[some "Date", some "Amount"],
        [some "2025-01-05", some "12500"]])] (some "converted/src_x")).sheets,
      "row_labels" ∉ r.jsonKeys := by
  refine ⟨?_, ?_, ?_, ?_⟩ <;> decide

theorem xlsxConvertSheet_record (name : String) (rows : List (List Cell)) :
    (xlsxConvertSheet name rows).sample_rows.length ≤ 5 ∧
    "row_labels" ∉ (xlsxConvertSheet name rows).jsonKeys ∧
    "name" ∈ (xlsxConvertSheet name rows).jsonKeys ∧
    "headers" ∈ (xlsxConvertSheet name rows).jsonKeys ∧
    "row_count" ∈ (xlsxConvertSheet name rows).jsonKeys ∧
    "column_count" ∈ (xlsxConvertSheet name rows).jsonKeys ∧
    "sample_rows" ∈ (xlsxConvertSheet name rows).jsonKeys ∧
    (xlsxConvertSheet name rows).name = name ∧
    (xlsxConvertSheet name rows).column_count =
      (xlsxConvertSheet name rows).headers.length ∧
    (xlsxConvertSheet name rows).row_count = rows.length - 1 := by
  match rows with
  | [] =>
    refine ⟨by simp [xlsxConvertSheet], ?_, ?_, ?_, ?_, ?_, ?_, rfl, rfl, rfl⟩ <;>
      simp [xlsxConvertSheet]
  | row0 :: dataRows =>
    refine ⟨?_, ?_, ?_, ?_, ?_, ?_, ?_, rfl, rfl, by simp [xlsxConvertSheet]⟩
    · simp only [xlsxConvertSheet, List.length_map, List.length_take]
      omega
    all_goals simp [xlsxConvertSheet]

/-- C3 amended: for every workbook, `convert` writes exactly one
`sheet_<safe_name>.json` per sheet and no other file; each serialized
record keeps `name`, `headers`, `row_count`, `column_count` and at most
five `sample_rows`, and has no `row_labels` key (no combined `full.md` and
no per-sheet markdown are written). -/
theorem C3_xlsx_convert_amended (workbook : List (String × List (List Cell)))
    (dir : String) :
    (xlsxConvert workbook (some dir)).output_files =
      workbook.map (fun ws =>
        dir ++ "/sheet_" ++ xlsxSafeName (xlsxConvertSheet ws.1 ws.2).name ++ ".json") ∧
    (∀ f ∈ (xlsxConvert workbook (some dir)).output_files,
      List.IsSuffix ".json".data f.data) ∧
    (xlsxConvert workbook (some dir)).sheet_count = workbook.length ∧
    List.Forall₂ (fun r ws =>
        r.name = ws.1 ∧ r.column_count = r.headers.length ∧
        r.row_count = ws.2.length - 1)
      (xlsxConvert workbook (some dir)).sheets workbook ∧
    ∀ r ∈ (xlsxConvert workbook (some dir)).sheets,
      r.sample_rows.length ≤ 5 ∧ "row_labels" ∉ r.jsonKeys ∧
      "name" ∈ r.jsonKeys ∧ "headers" ∈ r.jsonKeys ∧ "row_count" ∈ r.jsonKeys ∧
      "column_count" ∈ r.jsonKeys ∧ "sample_rows" ∈ r.jsonKeys := by
  refine ⟨?_, ?_, ?_, ?_, ?_⟩
  · simp [xlsxConvert]
  · intro f hf
    simp only [xlsxConvert, List.map_map, List.mem_map] at hf
    obtain ⟨ws, hws, rfl⟩ := hf
    exact ⟨(dir ++ "/sheet_" ++
      xlsxSafeName (xlsxConvertSheet ws.1 ws.2).name).data, by
        simp [String.data_append]⟩
  · simp [xlsxConvert]
  · rw [show (xlsxConvert workbook (some dir)).sheets =
      workbook.map (fun ws => xlsxConvertSheet ws.1 ws.2) from rfl]
    rw [List.forall₂_map_left_iff]
    rw [List.forall₂_same]
    intro ws hws
    obtain ⟨h1, h2, h3, h4, h5, h6, h7, h8, h9, h10⟩ :=
      xlsxConvertSheet_record ws.1 ws.2
    exact ⟨h8, h9, h10⟩
  · intro r hr
    simp only [xlsxConvert, List.mem_map] at hr
    obtain ⟨ws, hws, rfl⟩ := hr
    obtain ⟨h1, h2, h3, h4, h5, h6, h7, h8, h9, h10⟩ :=
      xlsxConvertSheet_record ws.1 ws.2
    exact ⟨h1, h2, h3, h4, h5, h6, h7⟩

/-- Witness for C3 amended at a concrete one-sheet workbook. -/
theorem C3_xlsx_convert_amended_witness :
    (xlsxConvert [("Sales", [[some "Date"], [some "2025-01-05"]])]
      (some "converted/src_x")).sheet_count = 1 :=
  (C3_xlsx_convert_amended [("Sales", [[some "Date"], [some "2025-01-05"]])]
    "converted/src_x").2.2.1

theorem add_source_exists_id (catalog : Catalog) (card : FileCard)
    (cp tp now : String) :
    ∃ s ∈ (add_source catalog card cp tp now).1.sources, s.id = card.id := by
  unfold add_source
  cases hfind : find_source catalog card.id with
  | none =>
    refine ⟨mkEntry card cp tp now, ?_, rfl⟩
    simp
  | some e =>
    have hex : ∃ x ∈ catalog.sources, (fun s : CatEntry => s.id == card.id) x = true := by
      refine ⟨e, List.mem_of_find?_eq_some hfind, ?_⟩
      have := List.find?_some hfind
      simpa using this
    have hlt := List.findIdx_lt_length_of_exists hex
    refine ⟨mkEntry card cp tp now, ?_, rfl⟩
    simp only
    have hlen : catalog.sources.findIdx (fun s => s.id == card.id) <
        (catalog.sources.set (catalog.sources.findIdx (fun s => s.id == card.id))
          (mkEntry card cp tp now)).length := by
      simpa using hlt
    have := List.getElem_set_self hlen
    have hmem := List.getElem_mem hlen
    rwa [this] at hmem

theorem add_source_length_of_exists (catalog : Catalog) (card : FileCard)
    (cp tp now : String)
    (h : ∃ s ∈ catalog.sources, s.id = card.id) :
    (∃ idx, (add_source catalog card cp tp now).1.sources =
        catalog.sources.set idx (mkEntry card cp tp now)) ∧
    (add_source catalog card cp tp now).1.sources.length =
      catalog.sources.length := by
  obtain ⟨s, hs, hid⟩ := h
  have hfind : (find_source catalog card.id).isSome := by
    rw [find_source, List.find?_isSome]
    exact ⟨s, hs, by simp [hid]⟩
  unfold add_source
  cases hf : find_source catalog card.id with
  | none => rw [hf] at hfind; simp at hfind
  | some e =>
    constructor
    · exact ⟨catalog.sources.findIdx (fun s => s.id == card.id), rfl⟩
    · simp

/-- C7: adding a card whose id already exists in the catalog replaces the
existing entry in place (the sources list becomes a `set` at the index of
the first id match) and leaves the source count unchanged; consequently
adding the same card twice — an unchanged file re-ingested derives the same
id, `_generate_id` being a pure function of `(filename, size, mtime_ns)` —
leaves the count unchanged. -/
theorem C7_readd_in_place (catalog : Catalog) (card : FileCard)
    (cp tp now cp2 tp2 now2 : String)
    (h : ∃ s ∈ catalog.sources, s.id = card.id) :
    (∃ idx, (add_source catalog card cp tp now).1.sources =
        catalog.sources.set idx (mkEntry card cp tp now)) ∧
    (add_source catalog card cp tp now).1.sources.length =
      catalog.sources.length ∧
    (add_source (add_source catalog card cp tp now).1 card cp2 tp2 now2).1.sources.length =
      (add_source catalog card cp tp now).1.sources.length := by
  obtain ⟨hset, hlen⟩ := add_source_length_of_exists catalog card cp tp now h
  refine ⟨hset, hlen, ?_⟩
  exact (add_source_length_of_exists _ card cp2 tp2 now2
    (add_source_exists_id catalog card cp tp now)).2

/-- Witness for C7 on a one-entry catalog holding the same id. -/
theorem C7_readd_in_place_witness :
    (add_source
        { version := "1.0", last_updated := "t0",
          sources := [mkEntry
            { id := "src_ab12", filename := "a.md", path := "/in/a.md",
              type := "markdown", category := "text", size_kb := 1,
              sampled := false, strategy := none } "converted/src_ab12"
            "tree_index/src_ab12.tree.json" "t0"] }
        { id := "src_ab12", filename := "a.md", path := "/in/a.md",
          type := "markdown", category := "text", size_kb := 1,
          sampled := false, strategy := none }
        "converted/src_ab12" "tree_index/src_ab12.tree.json" "t1").1.sources.length = 1 := by
  have h := (C7_readd_in_place
    { version := "1.0", last_updated := "t0",
      sources := [mkEntry
        { id := "src_ab12", filename := "a.md", path := "/in/a.md",
          type := "markdown", category := "text", size_kb := 1,
          sampled := false, strategy := none } "converted/src_ab12"
        "tree_index/src_ab12.tree.json" "t0"] }
    { id := "src_ab12", filename := "a.md", path := "/in/a.md",
      type := "markdown", category := "text", size_kb := 1,
      sampled := false, strategy := none }
    "converted/src_ab12" "tree_index/src_ab12.tree.json" "t1" "c" "t" "n"
    ⟨mkEntry
      { id := "src_ab12", filename := "a.md", path := "/in/a.md",
        type := "markdown", category := "text", size_kb := 1,
        sampled := false, strategy := none } "converted/src_ab12"
      "tree_index/src_ab12.tree.json" "t0", by simp, rfl⟩).2.1
  rw [h]
  rfl

/-- C4 as stated is false on the code: `save_catalog` writes the catalog
file directly — no temporary, no rename — and the tree, vector metadata
and hash index writes do the same. -/
theorem C4_counterexample :
    ¬ atomicReplace "catalog.json"
        (save_catalog (create_catalog "t0") "catalog.json" "t1").2 ∧
    ¬ atomicReplace "tree_index/src_ab.tree.json"
        (write_tree_ops "tree_index" "src_ab") ∧
    ¬ atomicReplace "vector_store/metadata.json"
        (write_metadata_ops "vector_store") ∧
    ¬ atomicReplace "store/hash_index.json" (save_hash_index_ops "store") := by
  refine ⟨?_, ?_, ?_, ?_⟩ <;>
    · intro h
      exact h.2 (by decide)

/-- C4 amended: every on-disk JSON write in the system writes the target
path directly (after at most a `mkdir` of the enclosing directory), and no
trace contains a rename; `save_catalog` also refreshes `last_updated`. -/
theorem C4_direct_writes (catalog : Catalog) (path now tid sid vsd root : String) :
    (save_catalog catalog path now).2 =
      [FsOp.mkdirp (parentDir path), FsOp.writeFile path] ∧
    FsOp.writeFile path ∈ (save_catalog catalog path now).2 ∧
    FsOp.writeFile (tid ++ "/" ++ sid ++ ".tree.json") ∈ write_tree_ops tid sid ∧
    FsOp.writeFile (vsd ++ "/metadata.json") ∈ write_metadata_ops vsd ∧
    FsOp.writeFile (root ++ "/hash_index.json") ∈ save_hash_index_ops root ∧
    (∀ op ∈ (save_catalog catalog path now).2 ++ write_tree_ops tid sid ++
        write_metadata_ops vsd ++ save_hash_index_ops root,
      ∀ src dst, op ≠ FsOp.renameFile src dst) ∧
    (save_catalog catalog path now).1.last_updated = now := by
  refine ⟨rfl, by simp [save_catalog], by simp [write_tree_ops],
    by simp [write_metadata_ops], by simp [save_hash_index_ops], ?_, rfl⟩
  intro op hop src dst
  intro hren
  subst hren
  simp [save_catalog, write_tree_ops, write_metadata_ops,
    save_hash_index_ops] at hop

/-- Witness for C4 amended at concrete store paths. -/
theorem C4_direct_writes_witness :
    FsOp.writeFile "catalog.json" ∈
      (save_catalog (create_catalog "t0") "catalog.json" "t1").2 :=
  (C4_direct_writes (create_catalog "t0") "catalog.json" "t1" "tree_index"
    "src_ab" "vector_store" "store").2.1

/-- C1 as stated is false on the code: ingesting a single spreadsheet whose
tree build raises (as every spreadsheet does, via the missing
`get_sheet_hint` import) completes the ingest and saves a catalog whose
entry points at a tree file that was never written. -/
theorem C1_counterexample :
    ¬ catalogPathsExist (ingest_run
        ⟨[], create_catalog "t0"⟩
        [{ card :=
             { id := "src_x1", filename := "sales.xlsx",
               path := "/in/sales.xlsx", type := "xlsx",
               category := "spreadsheet", size_kb := 3,
               sampled := true, strategy := none },
           detectOk := true, convertOk := true, rawReadOk := true,
           treeOk := false }]
        "t1") := by
  decide

theorem ingest_file_fs_mono (st : StoreState) (o : IngestOutcome)
    (now : String) : ∀ p ∈ st.fs, p ∈ (ingest_file st o now).1.fs := by
  intro p hp
  unfold ingest_file
  by_cases hdet : o.detectOk
  · simp only [hdet, not_true, if_neg, if_false]
    by_cases hskip : o.card.type = "archive" ∨ o.card.type = "image" ∨
        o.card.type = "unknown"
    · simp [hskip, hp]
    · simp only [hskip, if_false]
      by_cases htree : o.treeOk <;>
        by_cases hconv : o.convertOk <;>
          by_cases hraw : o.rawReadOk <;>
            simp [htree, hconv, hraw, hp]
  · simp [hdet, hp]

theorem ingest_file_inv (st : StoreState) (o : IngestOutcome) (now : String)
    (htree : o.treeOk = true) (h : catalogPathsExist st) :
    catalogPathsExist (ingest_file st o now).1 := by
  intro e he
  by_cases hdet : o.detectOk
  swap
  · have hstate : (ingest_file st o now).1 = st := by
      unfold ingest_file
      simp [hdet]
    rw [hstate] at he ⊢
    exact h e he
  by_cases hskip : o.card.type = "archive" ∨ o.card.type = "image" ∨
      o.card.type = "unknown"
  · have hstate : (ingest_file st o now).1 = st := by
      unfold ingest_file
      simp [hdet, hskip]
    rw [hstate] at he ⊢
    exact h e he
  · have hstate : (ingest_file st o now).1 = ⟨(if o.convertOk then
        st.fs ++ ["converted/" ++ o.card.id]
      else if o.rawReadOk then
        st.fs ++ ["converted/" ++ o.card.id, "converted/" ++ o.card.id ++ "/full.txt"]
      else st.fs ++ ["converted/" ++ o.card.id]) ++
        ["tree_index/" ++ o.card.id ++ ".tree.json"],
      (add_source st.catalog o.card ("converted/" ++ o.card.id)
        ("tree_index/" ++ o.card.id ++ ".tree.json") now).1⟩ := by
      unfold ingest_file
      simp [hdet, hskip, htree]
    rw [hstate] at he ⊢
    simp only at he
    have hsrc : e ∈ st.catalog.sources ∨
        e = mkEntry o.card ("converted/" ++ o.card.id)
          ("tree_index/" ++ o.card.id ++ ".tree.json") now := by
      unfold add_source at he
      cases hf : find_source st.catalog o.card.id with
      | some x =>
        rw [hf] at he
        simp only at he
        exact List.mem_or_eq_of_mem_set he
      | none =>
        rw [hf] at he
        simp only at he
        rcases List.mem_append.mp he with hmem | hmem
        · exact Or.inl hmem
        · exact Or.inr (List.mem_singleton.mp hmem)
    rcases hsrc with hmem | heq
    · obtain ⟨h1, h2⟩ := h e hmem
      constructor <;>
        · simp only [List.mem_append]
          left
          by_cases hconv : o.convertOk <;> by_cases hraw : o.rawReadOk <;>
            simp [hconv, hraw] <;> simp_all
    · subst heq
      constructor
      · simp [mkEntry]
      · simp only [mkEntry, List.mem_append]
        left
        by_cases hconv : o.convertOk <;> by_cases hraw : o.rawReadOk <;>
          simp [hconv, hraw]

/-- C1 amended: the guarantee holds for the files whose tree build
succeeded — if tree building succeeds for every processed file (and the
initial store already satisfied it), then after the ingest completes every
catalog entry has `tree_path` and `converted_path` existing on disk.  When
`build_tree_for_source` raises, the exception is swallowed and the saved
catalog keeps an entry whose `tree_path` does not exist
(`C1_counterexample`). -/
theorem C1_amended (st0 : StoreState) (outcomes : List IngestOutcome)
    (now : String) (htree : ∀ o ∈ outcomes, o.treeOk = true)
    (h0 : catalogPathsExist st0) :
    catalogPathsExist (ingest_run st0 outcomes now) := by
  have hfold : ∀ (l : List IngestOutcome) (st : StoreState),
      (∀ o ∈ l, o.treeOk = true) → catalogPathsExist st →
      catalogPathsExist (l.foldl (fun st o => (ingest_file st o now).1) st) := by
    intro l
    induction l with
    | nil => intro st _ h; exact h
    | cons o rest ih =>
      intro st hl h
      exact ih _ (fun x hx => hl x (by simp [hx]))
        (ingest_file_inv st o now (hl o (by simp)) h)
  intro e he
  have h1 := hfold outcomes st0 htree h0
  have he' : e ∈ (outcomes.foldl (fun st o => (ingest_file st o now).1) st0).catalog.sources := he
  obtain ⟨ht, hc⟩ := h1 e he'
  exact ⟨by simp [ingest_run, ht], by simp [ingest_run, hc]⟩

/-- Witness for C1 amended: one markdown file whose pipeline fully
succeeds. -/
theorem C1_amended_witness :
    catalogPathsExist (ingest_run ⟨[], create_catalog "t0"⟩
      [{ card :=
           { id := "src_m1", filename := "notes.md",
             path := "/in/notes.md", type := "markdown", category := "text",
             size_kb := 1, sampled := true, strategy := none },
         detectOk := true, convertOk := true, rawReadOk := true,
         treeOk := true }] "t1") :=
  C1_amended ⟨[], create_catalog "t0"⟩ _ "t1" (by simp)
    (by intro e he; simp [create_catalog] at he)

theorem faissSearch_sorted (vecs : List (List Rat)) (q : List Rat) (k : Nat) :
    List.Pairwise (fun a b : Rat × Int => b.1 ≤ a.1) (faissSearch vecs q k) := by
  apply List.Pairwise.sublist (List.take_sublist _ _)
  have h := @List.sorted_mergeSort _
    (fun a b : Rat × Int => decide (b.1 ≤ a.1))
    (fun a b c hab hbc => by
      simp only [decide_eq_true_eq] at hab hbc ⊢
      exact le_trans hbc hab)
    (fun a b => by
      simp only [Bool.or_eq_true, decide_eq_true_eq]
      exact le_total b.1 a.1)
    ((vecs.map (dotProduct q)).enum.map (fun p => (p.2, (p.1 : Int))))
  refine h.imp ?_
  intro a b hab
  simpa using hab

theorem faissSearch_mem_valid (vecs : List (List Rat)) (q : List Rat)
    (k : Nat) : ∀ p ∈ faissSearch vecs q k,
      0 ≤ p.2 ∧ p.2 < (vecs.length : Int) := by
  intro p hp
  have hp1 : p ∈ ((vecs.map (dotProduct q)).enum.map
      (fun p => (p.2, (p.1 : Int)))).mergeSort (fun a b => decide (b.1 ≤ a.1)) :=
    List.mem_of_mem_take hp
  rw [List.mem_mergeSort] at hp1
  obtain ⟨q', hmem, heq⟩ := List.mem_map.mp hp1
  obtain ⟨i, sc⟩ := q'
  obtain ⟨hlt, _⟩ := List.mem_enum hmem
  subst heq
  simp only [List.length_map] at hlt
  constructor
  · show (0 : Int) ≤ (i : Int)
    exact Int.ofNat_nonneg i
  · show (i : Int) < (vecs.length : Int)
    exact_mod_cast hlt

theorem faissSearch_length (vecs : List (List Rat)) (q : List Rat) (k : Nat) :
    (faissSearch vecs q k).length = min k vecs.length := by
  simp [faissSearch, List.length_take, List.length_mergeSort]

theorem searchFold_spec (metadata : List MetaRecord) :
    ∀ (hits : List (Rat × Int)),
      (∀ p ∈ hits, 0 ≤ p.2 ∧ p.2 < (metadata.length : Int)) →
      ∀ (acc : List SearchResult) (i0 : Nat),
        ((List.enumFrom i0 hits).foldl (searchStep metadata) acc).map
            (fun r => r.score) =
          acc.map (fun r => r.score) ++ hits.map (fun p => p.1) ∧
        ((List.enumFrom i0 hits).foldl (searchStep metadata) acc).map
            (fun r => r.rank) =
          acc.map (fun r => r.rank) ++ List.range' (i0 + 1) hits.length ∧
        ((List.enumFrom i0 hits).foldl (searchStep metadata) acc).length =
          acc.length + hits.length := by
  intro hits
  induction hits with
  | nil => intro _ acc i0; simp [List.enumFrom]
  | cons p rest ih =>
    intro hvalid acc i0
    obtain ⟨hge, hlt⟩ := hvalid p (by simp)
    have hrest : ∀ q ∈ rest, 0 ≤ q.2 ∧ q.2 < (metadata.length : Int) :=
      fun q hq => hvalid q (by simp [hq])
    have hbd : p.2.toNat < metadata.length := by omega
    have hstep : searchStep metadata acc (i0, p) =
        acc ++ [mkSearchResult (metadata.get ⟨p.2.toNat, hbd⟩) p.1 (i0 + 1)] := by
      show (if p.2 < 0 ∨ (metadata.length : Int) ≤ p.2 then acc
        else match metadata[p.2.toNat]? with
          | some m => acc ++ [mkSearchResult m p.1 (i0 + 1)]
          | none => acc) =
        acc ++ [mkSearchResult (metadata.get ⟨p.2.toNat, hbd⟩) p.1 (i0 + 1)]
      rw [if_neg (by omega), List.getElem?_eq_getElem hbd]
      rfl
    have ihr := ih hrest
      (acc ++ [mkSearchResult (metadata.get ⟨p.2.toNat, hbd⟩) p.1 (i0 + 1)])
      (i0 + 1)
    simp only [List.enumFrom, List.foldl_cons, hstep]
    refine ⟨?_, ?_, ?_⟩
    · rw [ihr.1]
      simp [mkSearchResult]
    · rw [ihr.2.1]
      have hrange : List.range' (i0 + 1) (p :: rest).length =
          (i0 + 1) :: List.range' (i0 + 2) rest.length := by
        rw [List.length_cons, List.range'_succ]
      rw [hrange]
      simp [mkSearchResult]
    · rw [ihr.2.2]
      simp only [List.length_append, List.length_cons, List.length_singleton,
        List.length_nil]
      omega

/-- C6: search embeds the query, takes `k = min(top_k, ntotal)`, and —
under the invariant that the metadata list is as long as the index —
returns a list whose scores are non-increasing by rank, whose `rank`
values are exactly `1..len(results)`, and whose length is
`min(top_k, ntotal)`. -/
theorem C6_search_monotone (encode : String → List Rat) (st : VecStore)
    (query : String) (top_k : Nat)
    (h : st.metadata.length = st.vecs.length) :
    List.Pairwise (fun a b : SearchResult => b.score ≤ a.score)
      (vsearch encode (some st) query top_k) ∧
    (vsearch encode (some st) query top_k).map (fun r => r.rank) =
      List.range' 1 (vsearch encode (some st) query top_k).length ∧
    (vsearch encode (some st) query top_k).length = min top_k st.vecs.length := by
  by_cases hzero : st.vecs.length = 0
  · simp [vsearch, hzero]
  · have hvalid := faissSearch_mem_valid st.vecs (encode query)
      (min top_k st.vecs.length)
    have hvalid' : ∀ p ∈ faissSearch st.vecs (encode query)
        (min top_k st.vecs.length),
        0 ≤ p.2 ∧ p.2 < (st.metadata.length : Int) := by
      intro p hp
      rw [h]
      exact hvalid p hp
    have hfold := searchFold_spec st.metadata
      (faissSearch st.vecs (encode query) (min top_k st.vecs.length))
      hvalid' [] 0
    have hres : vsearch encode (some st) query top_k =
        (List.enumFrom 0 (faissSearch st.vecs (encode query)
          (min top_k st.vecs.length))).foldl (searchStep st.metadata) [] := by
      show (if st.vecs.length = 0 then [] else
        (faissSearch st.vecs (encode query)
          (min top_k st.vecs.length)).enum.foldl (searchStep st.metadata) []) =
        (List.enumFrom 0 (faissSearch st.vecs (encode query)
          (min top_k st.vecs.length))).foldl (searchStep st.metadata) []
      rw [if_neg hzero]
      rfl
    have hlen : (vsearch encode (some st) query top_k).length =
        min top_k st.vecs.length := by
      rw [hres, hfold.2.2, faissSearch_length]
      simp only [List.length_nil, Nat.zero_add]
      omega
    refine ⟨?_, ?_, hlen⟩
    · have hscores : (vsearch encode (some st) query top_k).map
          (fun r => r.score) =
          (faissSearch st.vecs (encode query) (min top_k st.vecs.length)).map
            (fun p => p.1) := by
        rw [hres, hfold.1]
        simp
      have hsorted := faissSearch_sorted st.vecs (encode query)
        (min top_k st.vecs.length)
      have hpair : List.Pairwise (fun a b : Rat => b ≤ a)
          ((vsearch encode (some st) query top_k).map (fun r => r.score)) := by
        rw [hscores, List.pairwise_map]
        exact hsorted
      rw [List.pairwise_map] at hpair
      exact hpair
    · rw [hres, hfold.2.1, hfold.2.2]
      simp

/-- Witness for C6 on a two-vector store. -/
theorem C6_search_monotone_witness :
    (vsearch (fun _ => [1]) (some ⟨[[1], [2]],
        [{ id := "src_a", filename := "a", summary := "", type := "",
           category := "", tags := [] },
         { id := "src_b", filename := "b", summary := "", type := "",
           category := "", tags := [] }]⟩) "q" 5).map (fun r => r.rank) =
      [1, 2] := by
  have h := (C6_search_monotone (fun _ => [1]) ⟨[[1], [2]],
    [{ id := "src_a", filename := "a", summary := "", type := "",
       category := "", tags := [] },
     { id := "src_b", filename := "b", summary := "", type := "",
       category := "", tags := [] }]⟩ "q" 5 rfl)
  rw [h.2.1, h.2.2]
  rfl

/-- C8: `build_index` writes one metadata record per embedded source in
parallel order, and `add_to_index` skips exactly the sources whose id is
already present before appending the remainder; both preserve
`metadata.length == ntotal` and id uniqueness (given unique input ids, as
the catalog primary key guarantees). -/
theorem C8_index_invariants (encode : String → List Rat)
    (sources : List CatEntry) (existing : Option VecStore)
    (hsrc : (sources.map (fun s => s.id)).Nodup)
    (hex : ∀ st ∈ existing, storeInv st) :
    storeInv (build_index encode sources) ∧
    (build_index encode sources).metadata = sources.map metaOf ∧
    (build_index encode sources).vecs =
      sources.map (fun s => encode (build_embed_text s)) ∧
    storeInv (add_to_index encode existing sources) ∧
    (add_to_index encode existing sources).metadata =
      (getStore existing).metadata ++
        (sources.filter (fun s =>
          !(((getStore existing).metadata.map (fun m => m.id)).contains
            s.id))).map metaOf := by
  have hmapid : ∀ (l : List CatEntry),
      (l.map metaOf).map (fun m => m.id) = l.map (fun s => s.id) := by
    intro l
    rw [List.map_map]
    rfl
  have hbuild : storeInv (build_index encode sources) := by
    refine ⟨by simp [build_index, embed_sources], ?_⟩
    rw [show (build_index encode sources).metadata = sources.map metaOf from rfl,
      hmapid]
    exact hsrc
  have hstinv : storeInv (getStore existing) := by
    cases existing with
    | none => exact ⟨rfl, List.nodup_nil⟩
    | some st => exact hex st rfl
  have hadd : add_to_index encode existing sources =
      (if (sources.filter (fun s =>
          !(((getStore existing).metadata.map (fun m => m.id)).contains
            s.id))).isEmpty then getStore existing
       else ⟨(getStore existing).vecs ++ (embed_sources encode
           (sources.filter (fun s =>
             !(((getStore existing).metadata.map (fun m => m.id)).contains
               s.id)))).1,
         (getStore existing).metadata ++ (embed_sources encode
           (sources.filter (fun s =>
             !(((getStore existing).metadata.map (fun m => m.id)).contains
               s.id)))).2⟩) := rfl
  refine ⟨hbuild, rfl, rfl, ?_, ?_⟩
  · rw [hadd]
    by_cases hempty : ((sources.filter (fun s =>
        !(((getStore existing).metadata.map (fun m => m.id)).contains
          s.id))).isEmpty = true)
    · rw [if_pos hempty]
      exact hstinv
    · rw [if_neg hempty]
      constructor
      · simp only [List.length_append, embed_sources, List.length_map]
        rw [hstinv.1]
      · rw [show (embed_sources encode (sources.filter (fun s =>
          !(((getStore existing).metadata.map (fun m => m.id)).contains
            s.id)))).2 =
          (sources.filter (fun s =>
            !(((getStore existing).metadata.map (fun m => m.id)).contains
              s.id))).map metaOf from rfl]
        rw [List.map_append, hmapid]
        apply List.Nodup.append hstinv.2
        · exact List.Nodup.sublist
            (List.Sublist.map _ (List.filter_sublist sources)) hsrc
        · intro a ha hb
          obtain ⟨src, hsmem, rfl⟩ := List.mem_map.mp hb
          have hfilt := List.of_mem_filter hsmem
          simp only [Bool.not_eq_true'] at hfilt
          have hcontains : (((getStore existing).metadata.map
              (fun m => m.id)).contains src.id) = true :=
            List.elem_iff.mpr ha
          rw [hfilt] at hcontains
          exact Bool.false_ne_true hcontains
  · rw [hadd]
    by_cases hempty : ((sources.filter (fun s =>
        !(((getStore existing).metadata.map (fun m => m.id)).contains
          s.id))).isEmpty = true)
    · rw [if_pos hempty]
      rw [List.isEmpty_iff] at hempty
      rw [hempty]
      simp
    · rw [if_neg hempty]
      rfl

/-- Witness for C8: one new source added to an empty store. -/
theorem C8_index_invariants_witness :
    storeInv (add_to_index (fun _ => [1]) none
      [mkEntry
        { id := "src_ab12", filename := "a.md", path := "/in/a.md",
          type := "markdown", category := "text", size_kb := 1,
          sampled := false, strategy := none } "c" "t" "n"]) :=
  (C8_index_invariants (fun _ => [1])
    [mkEntry
      { id := "src_ab12", filename := "a.md", path := "/in/a.md",
        type := "markdown", category := "text", size_kb := 1,
        sampled := false, strategy := none } "c" "t" "n"] none
    (by simp) (by intro st hst; simp at hst)).2.2.2.1

/-- C10: `read_node_content` never fails on a resolvable node — whenever
the tree file exists and the node is found in it, it returns the record
with `source_id`, `node_id`, `title`, `summary`, `content_ref` and
`content`, where `content` is the empty string whenever the node has no
`content_ref` or the referenced path does not exist; and it returns `None`
exactly when the tree or the node is not found. -/
theorem C10_read_node (tree : Tree) (fileAt : String → Option String)
    (jsonPretty : String → String) (sid nid : String) (node : Node)
    (hfind : findNode tree.root nid = some node) :
    (read_node_content (some tree) fileAt jsonPretty sid nid =
      some (mkReadResult sid nid node fileAt jsonPretty)) ∧
    (mkReadResult sid nid node fileAt jsonPretty).source_id = sid ∧
    (mkReadResult sid nid node fileAt jsonPretty).node_id = nid ∧
    (mkReadResult sid nid node fileAt jsonPretty).title = node.title ∧
    (mkReadResult sid nid node fileAt jsonPretty).summary = node.summary ∧
    (mkReadResult sid nid node fileAt jsonPretty).content_ref =
      node.content_ref ∧
    ((node.content_ref = none ∨
        ∀ ref, node.content_ref = some ref → fileAt ref = none) →
      (mkReadResult sid nid node fileAt jsonPretty).content = "") ∧
    (∀ (td : Option Tree) (sid2 nid2 : String),
      read_node_content td fileAt jsonPretty sid2 nid2 = none ↔
        (td = none ∨ ∃ t, td = some t ∧ findNode t.root nid2 = none)) := by
  have hmain : read_node_content (some tree) fileAt jsonPretty sid nid =
      some (mkReadResult sid nid node fileAt jsonPretty) := by
    show (match findNode tree.root nid with
      | none => none
      | some node => some (mkReadResult sid nid node fileAt jsonPretty) :
      Option ReadResult) =
      some (mkReadResult sid nid node fileAt jsonPretty)
    rw [hfind]
  refine ⟨hmain, rfl, rfl, rfl, rfl, rfl, ?_, ?_⟩
  · intro hnone
    cases href : node.content_ref with
    | none => simp [mkReadResult, href]
    | some ref =>
      rcases hnone with hnone | hnone
      · rw [href] at hnone
        exact absurd hnone (by simp)
      · have hfa := hnone ref href
        simp [mkReadResult, href, hfa]
  · intro td sid2 nid2
    cases td with
    | none => simp [read_node_content]
    | some t =>
      cases hf : findNode t.root nid2 with
      | none =>
        constructor
        · intro _
          exact Or.inr ⟨t, rfl, hf⟩
        · intro _
          show (match findNode t.root nid2 with
            | none => none
            | some node =>
              some (mkReadResult sid2 nid2 node fileAt jsonPretty) :
            Option ReadResult) = none
          rw [hf]
      | some nd =>
        constructor
        · intro hcontra
          have hc2 : (match findNode t.root nid2 with
            | none => none
            | some node =>
              some (mkReadResult sid2 nid2 node fileAt jsonPretty) :
            Option ReadResult) = none := hcontra
          rw [hf] at hc2
          exact absurd hc2 (by simp)
        · rintro (h | ⟨t2, ht2, hfind2⟩)
          · exact absurd h (by simp)
          · have ht : t = t2 := Option.some.inj ht2
            subst ht
            rw [hf] at hfind2
            exact absurd hfind2 (by simp)

/-- Witness for C10 on a one-node tree whose root carries no content
reference. -/
theorem C10_read_node_witness :
    read_node_content
        (some ⟨"src_t", Node.basic "n0" "doc.md" "A document" [] none⟩)
        (fun _ => none) (fun s => s) "src_t" "n0" =
      some (mkReadResult "src_t" "n0"
        (Node.basic "n0" "doc.md" "A document" [] none)
        (fun _ => none) (fun s => s)) :=
  (C10_read_node ⟨"src_t", Node.basic "n0" "doc.md" "A document" [] none⟩
    (fun _ => none) (fun s => s) "src_t" "n0"
    (Node.basic "n0" "doc.md" "A document" [] none) rfl).1

end MetadataHub
